import Mathlib

/-!
HyperLogLog cardinality estimator (`hyperloglog_solution.go`).

A shallow embedding of the estimator of `IP-Addr-Counter-GO/hyperloglog_solution.go`
and a verification of its bucket update rule and of the branches of its estimate.

Conventions of the embedding.

* `uint64` and `uint8` values are natural numbers; every operation that can leave the
  word reduces modulo `2 ^ 64` (resp. `2 ^ 8`) explicitly.
* A slice `[]uint8` is a `List Nat`; indexing a slice out of range is a run-time panic
  in Go, which `Add` models by returning `none`.
* The estimator is mutated in place in Go; here `Add` returns the new estimator.
* `float64` and the functions of package `math` are not part of the program: `Estimate`
  is written once over an arbitrary interpretation `Float64Ops F` of them, and
  `exactOps` is the interpretation by exact rational arithmetic, with the logarithm
  left as a parameter.
* `Estimate` is the value returned as a function of the bucket array; `EstimateBody` runs
  the same statements one by one on the variables of the call, the bucket array included.
-/

namespace HLL

/-! ## Constants and data model -/

/-- Precision: `2 ^ p` buckets (`const p = 12`). -/
def p : Nat := 12

/-- Total number of buckets (`const m = 1 << p`). -/
def m : Nat := 1 <<< p

/-- A byte of the input (`byte`). -/
abbrev Byte : Type := Fin 256

/-- The estimator (`type HyperLogLog struct { buckets []uint8 }`). -/
structure HyperLogLog where
  buckets : List Nat
deriving DecidableEq

/-- The constructor (`NewHyperLogLog`): `make([]uint8, m)` is `m` zeroed buckets. -/
def NewHyperLogLog : HyperLogLog :=
  { buckets := List.replicate m 0 }

/-! ## Library functions used by `Add` -/

/-- The 64-bit FNV offset basis (`hash/fnv`, `offset64`). -/
def offset64 : Nat := 14695981039346656037

/-- The 64-bit FNV prime (`hash/fnv`, `prime64`). -/
def prime64 : Nat := 1099511628211

/-- One step of `(*sum64a).Write`: `hash ^= uint64(c); hash *= prime64` on a `uint64`. -/
def fnvStep (hash : Nat) (c : Byte) : Nat :=
  ((hash ^^^ c.val) * prime64) % 2 ^ 64

/-- The 64-bit FNV-1a hash of a byte sequence: `h := fnv.New64a(); h.Write(data); h.Sum64()`. -/
def Hash64 (data : List Byte) : Nat :=
  data.foldl fnvStep offset64

/-- Bit length with fuel: the number of halvings, at most `fuel`, that bring `x` to `0`. -/
def lenAux : Nat → Nat → Nat
  | 0, _ => 0
  | fuel + 1, x => if x = 0 then 0 else lenAux fuel (x / 2) + 1

/-- The minimum number of bits required to represent a `uint64` (`bits.Len64`);
`0` for `x = 0`. -/
def Len64 (x : Nat) : Nat := lenAux 64 x

/-- The number of leading zero bits of a `uint64` (`bits.LeadingZeros64`, which is
`64 - Len64(x)`); `64` for `x = 0`. -/
def LeadingZeros64 (x : Nat) : Nat := 64 - Len64 x

/-! ## `leadingZeros` and `Add` -/

/-- The helper `leadingZeros`: `uint8(bits.LeadingZeros64(x))`. -/
def leadingZeros (x : Nat) : Nat := LeadingZeros64 x % 2 ^ 8

/-- The bucket index computed by `Add` from the hash: `hash >> (64 - p)`. -/
def bucketIndex (hash : Nat) : Nat := hash >>> (64 - p)

/-- The value computed by `Add` from the hash: `hash<<p | (1 << (p - 1))` on a `uint64`. -/
def remainder (hash : Nat) : Nat := ((hash <<< p) % 2 ^ 64) ||| (1 <<< (p - 1))

/-- The rank computed by `Add` from the hash: `leadingZeros(value) + 1` on a `uint8`. -/
def rank (hash : Nat) : Nat := (leadingZeros (remainder hash) + 1) % 2 ^ 8

/-- The method `Add`. The result is `none` when `hll.buckets[index]` is out of range
(a run-time panic in Go). -/
def Add (hll : HyperLogLog) (data : List Byte) : Option HyperLogLog :=
  let hash := Hash64 data
  let index := bucketIndex hash
  let leftmostOnePosition := rank hash
  match hll.buckets[index]? with
  | none => none
  | some old =>
    if old < leftmostOnePosition then
      some { buckets := hll.buckets.set index leftmostOnePosition }
    else
      some hll

/-- A sequence of `Add` calls, one per element, in order (the loop of `processIPs`). -/
def AddAll (hll : HyperLogLog) : List (List Byte) → Option HyperLogLog
  | [] => some hll
  | e :: es => (Add hll e).bind (fun hll1 => AddAll hll1 es)

/-- The states reachable from `NewHyperLogLog()` by a finite sequence of `Add` calls. -/
inductive Reachable : HyperLogLog → Prop
  | init : Reachable NewHyperLogLog
  | step (hll hll1 : HyperLogLog) (data : List Byte) :
      Reachable hll → Add hll data = some hll1 → Reachable hll1

/-! ## `Estimate` -/

/-- An interpretation of `float64` and of the functions of package `math` that
`Estimate` uses. `lit q` is the `float64` of the constant or integer `q`. -/
structure Float64Ops (F : Type) where
  lit : ℚ → F
  add : F → F → F
  sub : F → F → F
  mul : F → F → F
  div : F → F → F
  Pow : F → F → F
  Log : F → F
  le : F → F → Bool
  lt : F → F → Bool
  toUint64 : F → Nat

section Estimate

variable {F : Type} (ops : Float64Ops F)

/-- The first loop of `Estimate`: `sum += 1.0 / math.Pow(2.0, float64(v))` over the buckets. -/
def bucketSum (buckets : List Nat) : F :=
  buckets.foldl
    (fun (sum : F) (v : Nat) =>
      ops.add sum (ops.div (ops.lit 1) (ops.Pow (ops.lit 2) (ops.lit (v : ℚ)))))
    (ops.lit 0)

/-- The constant `alphaMM := 0.7213 / (1 + 1.079/float64(m)) * float64(m*m)`. -/
def alphaMM : F :=
  ops.mul
    (ops.div (ops.lit 0.7213) (ops.add (ops.lit 1) (ops.div (ops.lit 1.079) (ops.lit m))))
    (ops.lit (m * m))

/-- The raw estimate `estimate := alphaMM / sum`. -/
def rawEstimate (buckets : List Nat) : F :=
  ops.div (alphaMM ops) (bucketSum ops buckets)

/-- The second loop of `Estimate`: the number of buckets with value `0`. -/
def countZeros (buckets : List Nat) : Nat :=
  buckets.foldl (fun zeros v => if v = 0 then zeros + 1 else zeros) 0

/-- The test of the small cardinality correction: `estimate <= 5.0/2.0*float64(m)`. -/
def smallRange (buckets : List Nat) : Bool :=
  ops.le (rawEstimate ops buckets) (ops.mul (ops.lit (5 / 2)) (ops.lit m))

/-- The test of the large cardinality correction: `estimate > (1<<32)/30.0`. -/
def largeRange (buckets : List Nat) : Bool :=
  ops.lt (ops.lit (2 ^ 32 / 30)) (rawEstimate ops buckets)

/-- The argument of the logarithm of the small cardinality correction:
`float64(m)/float64(zeros)`. -/
def smallLogArg (buckets : List Nat) : F :=
  ops.div (ops.lit m) (ops.lit (countZeros buckets))

/-- The argument of the logarithm of the large cardinality correction:
`1-estimate/(1<<32)`. -/
def largeLogArg (buckets : List Nat) : F :=
  ops.sub (ops.lit 1) (ops.div (rawEstimate ops buckets) (ops.lit (2 ^ 32)))

/-- The value of `estimate` at the `return` of `Estimate`, before the conversion. -/
def estimateValue (hll : HyperLogLog) : F :=
  if smallRange ops hll.buckets then
    if countZeros hll.buckets > 0 then
      ops.mul (ops.lit m) (ops.Log (smallLogArg ops hll.buckets))
    else
      rawEstimate ops hll.buckets
  else if largeRange ops hll.buckets then
    ops.mul (ops.lit (-(2 ^ 32))) (ops.Log (largeLogArg ops hll.buckets))
  else
    rawEstimate ops hll.buckets

/-- The method `Estimate`: `return uint64(estimate)`. -/
def Estimate (hll : HyperLogLog) : Nat :=
  ops.toUint64 (estimateValue ops hll)

/-- The variables of a call of `Estimate`: the bucket array that the receiver `hll` points
to, and the locals `sum`, `estimate` and `zeros`. -/
structure EstimateVars (F : Type) where
  buckets : List Nat
  sum : F
  estimate : F
  zeros : Nat

/-- One iteration of the first loop, at index `i`:
`v := hll.buckets[i]; sum += 1.0 / math.Pow(2.0, float64(v))`. -/
def sumStep (vars : EstimateVars F) (i : Nat) : EstimateVars F :=
  { vars with
    sum := ops.add vars.sum
      (ops.div (ops.lit 1) (ops.Pow (ops.lit 2) (ops.lit ((vars.buckets.getD i 0 : Nat) : ℚ)))) }

/-- One iteration of the second loop, at index `i`:
`v := hll.buckets[i]; if v == 0 { zeros++ }`. -/
def zerosStep (vars : EstimateVars F) (i : Nat) : EstimateVars F :=
  if vars.buckets.getD i 0 = 0 then { vars with zeros := vars.zeros + 1 } else vars

/-- The body of `Estimate`, statement by statement, on the variables of the call; the
result is the variables at the `return`. A `range` loop evaluates the length of the slice
once and reads the element of each index from the array. -/
def EstimateBody (vars : EstimateVars F) : EstimateVars F :=
  let v1 : EstimateVars F := { vars with sum := ops.lit 0 }
  let v2 : EstimateVars F := (List.range v1.buckets.length).foldl (sumStep ops) v1
  let v3 : EstimateVars F := { v2 with estimate := ops.div (alphaMM ops) v2.sum }
  if ops.le v3.estimate (ops.mul (ops.lit (5 / 2)) (ops.lit m)) then
    let v4 : EstimateVars F := { v3 with zeros := 0 }
    let v5 : EstimateVars F := (List.range v4.buckets.length).foldl zerosStep v4
    if v5.zeros > 0 then
      { v5 with
        estimate := ops.mul (ops.lit m) (ops.Log (ops.div (ops.lit m) (ops.lit (v5.zeros : ℚ)))) }
    else
      v5
  else if ops.lt (ops.lit (2 ^ 32 / 30)) v3.estimate then
    { v3 with
      estimate := ops.mul (ops.lit (-(2 ^ 32)))
        (ops.Log (ops.sub (ops.lit 1) (ops.div v3.estimate (ops.lit (2 ^ 32))))) }
  else
    v3

/-- A call `hll.Estimate()` on the state: the estimator after the call, with the bucket
array that the body leaves behind, and the value returned, `uint64(estimate)`. -/
def EstimateExec (hll : HyperLogLog) : HyperLogLog × Nat :=
  let vars := EstimateBody ops
    { buckets := hll.buckets, sum := ops.lit 0, estimate := ops.lit 0, zeros := 0 }
  ({ buckets := vars.buckets }, ops.toUint64 vars.estimate)

/-- Successive calls of `Estimate()` with no `Add` in between: the estimator after the
last call and the values returned, in order. -/
def EstimateCalls : Nat → HyperLogLog → HyperLogLog × List Nat
  | 0, hll => (hll, [])
  | n + 1, hll =>
    let r := EstimateExec ops hll
    let rs := EstimateCalls n r.1
    (rs.1, r.2 :: rs.2)

end Estimate

/-! ## Evaluation in exact arithmetic -/

/-- The interpretation of `float64` by exact rational arithmetic: no rounding, no
infinities and no NaN. `math.Pow` is exact on the integral exponents the program
uses, `uint64(x)` discards the fractional part, and the logarithm is a parameter. -/
def exactOps (Log : ℚ → ℚ) : Float64Ops ℚ where
  lit := fun q => q
  add := fun x y => x + y
  sub := fun x y => x - y
  mul := fun x y => x * y
  div := fun x y => x / y
  Pow := fun x y => x ^ ⌊y⌋
  Log := Log
  le := fun x y => decide (x ≤ y)
  lt := fun x y => decide (x < y)
  toUint64 := fun x => ⌊x⌋.toNat

/-- A stand-in for the logarithm on which the definitions can be evaluated: the tangent
of `ln` at `1`. It vanishes at `1`, is non-negative from `1` on and non-positive below. -/
def tangentLog (x : ℚ) : ℚ := x - 1

/-- A second stand-in for the logarithm on which the definitions can be evaluated: the
rational approximation `2 (x - 1) / (x + 1)` of `ln x`, close to it around `1`. -/
def padeLog (x : ℚ) : ℚ := 2 * (x - 1) / (x + 1)

/-! ## Definitions that follow the specification -/

/-- The bias constant as the specification words it: `alpha_m = 0.7213 / (1 + 1.079/m)`. -/
def specAlpha : ℚ := 0.7213 / (1 + 1.079 / (m : ℚ))

/-- The raw estimate as the specification words it:
`E = alpha_m * m^2 / (sum over the buckets of 2^(-value))`. -/
def specRawEstimate (buckets : List Nat) : ℚ :=
  specAlpha * (m : ℚ) ^ 2 / (buckets.map (fun v : Nat => (2 : ℚ) ^ (-(v : ℤ)))).sum

/-- The ranks of the elements of `xs` that are routed to bucket `i`. -/
def routedRanks (xs : List (List Byte)) (i : Nat) : List Nat :=
  (xs.filter (fun x => bucketIndex (Hash64 x) = i)).map (fun x => rank (Hash64 x))

/-- The maximum of the ranks of the elements of `xs` routed to bucket `i`, and `0` when
no element is routed to it. -/
def maxRankAt (xs : List (List Byte)) (i : Nat) : Nat :=
  (routedRanks xs i).foldl max 0

/-! ## Lemmas: the rank and the bucket index -/

theorem lenAux_le (fuel : Nat) : ∀ (k x : Nat), x < 2 ^ k → lenAux fuel x ≤ k := by
  induction fuel with
  | zero => intro k x _; simp [lenAux]
  | succ f ih =>
    intro k x hx
    unfold lenAux
    split
    · exact Nat.zero_le _
    · rename_i hx0
      cases k with
      | zero => simp at hx; exact absurd hx hx0
      | succ k =>
        have : x / 2 < 2 ^ k := by
          rw [Nat.div_lt_iff_lt_mul (by decide)]
          rw [Nat.pow_succ] at hx
          exact hx
        have := ih k (x / 2) this
        omega

theorem lenAux_ge (fuel : Nat) : ∀ (k x : Nat), k < fuel → 2 ^ k ≤ x → k + 1 ≤ lenAux fuel x := by
  induction fuel with
  | zero => intro k x hk _; exact absurd hk (Nat.not_lt_zero _)
  | succ f ih =>
    intro k x hk hx
    unfold lenAux
    have hpos : 0 < 2 ^ k := Nat.pos_pow_of_pos _ (by decide)
    split
    · omega
    · cases k with
      | zero => omega
      | succ k =>
        have : 2 ^ k ≤ x / 2 := by
          rw [Nat.le_div_iff_mul_le (by decide)]
          rw [Nat.pow_succ] at hx
          exact hx
        have := ih k (x / 2) (by omega) this
        omega

theorem remainder_lt (hash : Nat) : remainder hash < 2 ^ 64 := by
  unfold remainder
  apply Nat.or_lt_two_pow
  · exact Nat.mod_lt _ (by decide)
  · decide

theorem remainder_ge (hash : Nat) : 2 ^ (p - 1) ≤ remainder hash := by
  apply Nat.testBit_implies_ge
  unfold remainder
  rw [Nat.one_shiftLeft, Nat.testBit_or, Nat.testBit_two_pow_self, Bool.or_true]

theorem Len64_remainder (hash : Nat) :
    p ≤ Len64 (remainder hash) ∧ Len64 (remainder hash) ≤ 64 := by
  constructor
  · exact lenAux_ge 64 (p - 1) _ (by decide) (remainder_ge hash)
  · exact lenAux_le 64 64 _ (remainder_lt hash)

theorem rank_eq (hash : Nat) : rank hash = LeadingZeros64 (remainder hash) + 1 := by
  have h := Len64_remainder hash
  have hp : p = 12 := rfl
  unfold rank leadingZeros LeadingZeros64
  omega

theorem rank_bounds (hash : Nat) : 1 ≤ rank hash ∧ rank hash ≤ 64 - p + 1 := by
  have h := Len64_remainder hash
  have hp : p = 12 := rfl
  rw [rank_eq]
  unfold LeadingZeros64
  omega

/-! ## Lemmas: `Add` and sequences of `Add` -/

theorem Hash64_lt (data : List Byte) : Hash64 data < 2 ^ 64 := by
  unfold Hash64
  have key : ∀ (l : List Byte) (h : Nat), h < 2 ^ 64 → l.foldl fnvStep h < 2 ^ 64 := by
    intro l
    induction l with
    | nil => intro h hh; exact hh
    | cons c cs ih =>
      intro h _
      exact ih _ (Nat.mod_lt _ (by decide))
  exact key data offset64 (by decide)

theorem bucketIndex_lt (hash : Nat) (h : hash < 2 ^ 64) : bucketIndex hash < m := by
  unfold bucketIndex
  rw [Nat.shiftRight_eq_div_pow]
  have hm : m = 4096 := by decide
  have hp : p = 12 := rfl
  rw [hm, hp, Nat.div_lt_iff_lt_mul (by decide)]
  exact h

theorem bucketIndex_Hash64_lt (data : List Byte) : bucketIndex (Hash64 data) < m :=
  bucketIndex_lt _ (Hash64_lt data)

theorem set_getElem_same {α : Type} : ∀ (l : List α) (i : Nat) (h : i < l.length),
    l.set i (l.get ⟨i, h⟩) = l := by
  intro l
  induction l with
  | nil => intro i h; exact absurd h (Nat.not_lt_zero _)
  | cons a as ih =>
    intro i h
    cases i with
    | zero => rfl
    | succ i =>
      simp only [List.set_cons_succ, List.get_cons_succ]
      rw [ih i (Nat.lt_of_succ_lt_succ h)]

/-- The effect of `Add` in one formula: inside the slice the selected bucket becomes the
maximum of its old value and the rank, outside the slice the call panics. -/
theorem Add_eq (hll : HyperLogLog) (data : List Byte) :
    Add hll data =
      if bucketIndex (Hash64 data) < hll.buckets.length then
        some { buckets := hll.buckets.set (bucketIndex (Hash64 data))
                (max (hll.buckets.getD (bucketIndex (Hash64 data)) 0) (rank (Hash64 data))) }
      else none := by
  unfold Add
  by_cases hi : bucketIndex (Hash64 data) < hll.buckets.length
  · simp only [hi, if_true, List.getElem?_eq_getElem, List.getD_eq_getElem?_getD,
      Option.getD_some]
    by_cases hlt : hll.buckets[bucketIndex (Hash64 data)] < rank (Hash64 data)
    · simp only [hlt, if_true]
      rw [Nat.max_eq_right (Nat.le_of_lt hlt)]
    · simp only [hlt, if_false]
      rw [Nat.max_eq_left (Nat.le_of_not_lt hlt)]
      exact congrArg some (congrArg HyperLogLog.mk (set_getElem_same hll.buckets _ hi).symm)
  · simp only [hi, if_false]
    rw [List.getElem?_eq_none (Nat.le_of_not_lt hi)]

theorem Add_length (hll hll1 : HyperLogLog) (data : List Byte) (h : Add hll data = some hll1) :
    hll1.buckets.length = hll.buckets.length := by
  rw [Add_eq] at h
  split at h
  · cases h
    simp
  · cases h

theorem Add_isSome (hll : HyperLogLog) (data : List Byte) (hlen : hll.buckets.length = m) :
    Add hll data =
      some { buckets := hll.buckets.set (bucketIndex (Hash64 data))
              (max (hll.buckets.getD (bucketIndex (Hash64 data)) 0) (rank (Hash64 data))) } := by
  rw [Add_eq, if_pos]
  rw [hlen]
  exact bucketIndex_Hash64_lt data

theorem getD_set (l : List Nat) (i j v : Nat) (hi : i < l.length) :
    (l.set i v).getD j 0 = if j = i then v else l.getD j 0 := by
  simp only [List.getD_eq_getElem?_getD, List.getElem?_set]
  by_cases h : i = j
  · subst h
    simp [hi]
  · have h2 : ¬ j = i := fun e => h e.symm
    simp [h, h2]

theorem Add_getD_le (hll : HyperLogLog) (data : List Byte) (hlen : hll.buckets.length = m)
    (i : Nat) :
    hll.buckets.getD i 0 ≤
      ((hll.buckets.set (bucketIndex (Hash64 data))
        (max (hll.buckets.getD (bucketIndex (Hash64 data)) 0) (rank (Hash64 data)))).getD i 0) := by
  rw [getD_set _ _ _ _ (by rw [hlen]; exact bucketIndex_Hash64_lt data)]
  by_cases h : i = bucketIndex (Hash64 data)
  · rw [if_pos h, h]
    exact Nat.le_max_left _ _
  · rw [if_neg h]

theorem AddAll_total_mono : ∀ (es : List (List Byte)) (hll : HyperLogLog),
    hll.buckets.length = m →
    ∃ hll1, AddAll hll es = some hll1 ∧ hll1.buckets.length = m ∧
      ∀ i, hll.buckets.getD i 0 ≤ hll1.buckets.getD i 0 := by
  intro es
  induction es with
  | nil => intro hll hlen; exact ⟨hll, rfl, hlen, fun _ => Nat.le_refl _⟩
  | cons e es ih =>
    intro hll hlen
    have hadd := Add_isSome hll e hlen
    obtain ⟨hll2, h2, hlen2, hmono⟩ :=
      ih { buckets := hll.buckets.set (bucketIndex (Hash64 e))
            (max (hll.buckets.getD (bucketIndex (Hash64 e)) 0) (rank (Hash64 e))) }
        (by simp [hlen])
    refine ⟨hll2, ?_, hlen2, ?_⟩
    · simp only [AddAll, hadd, Option.some_bind]
      exact h2
    · intro i
      exact Nat.le_trans (Add_getD_le hll e hlen i) (hmono i)

theorem Reachable_length (hll : HyperLogLog) (h : Reachable hll) : hll.buckets.length = m := by
  induction h with
  | init => simp [NewHyperLogLog]
  | step hll hll1 data _ hadd ih => rw [Add_length hll hll1 data hadd]; exact ih

theorem AddAll_Reachable : ∀ (es : List (List Byte)) (hll hll1 : HyperLogLog),
    Reachable hll → AddAll hll es = some hll1 → Reachable hll1 := by
  intro es
  induction es with
  | nil =>
    intro hll hll1 hr h
    simp only [AddAll, Option.some.injEq] at h
    rw [← h]; exact hr
  | cons e es ih =>
    intro hll hll1 hr h
    have hadd := Add_isSome hll e (Reachable_length hll hr)
    simp only [AddAll, hadd, Option.some_bind] at h
    exact ih _ _ (Reachable.step _ _ e hr hadd) h

theorem Add_NewHyperLogLog_a :
    Add NewHyperLogLog [97] = some { buckets := NewHyperLogLog.buckets.set 2806 3 } := by
  rw [Add_isSome _ _ (by simp [NewHyperLogLog])]
  have h1 : bucketIndex (Hash64 [97]) = 2806 := by decide
  have h2 : rank (Hash64 [97]) = 3 := by decide
  rw [h1, h2]
  have h3 : NewHyperLogLog.buckets.getD 2806 0 = 0 := by
    simp only [NewHyperLogLog, List.getD_eq_getElem?_getD, List.getElem?_getD_replicate_default_eq]
  rw [h3]
  rfl

theorem set_max_comm (l : List Nat) (i j r s : Nat) (hi : i < l.length) (hj : j < l.length) :
    (l.set i (max (l.getD i 0) r)).set j (max ((l.set i (max (l.getD i 0) r)).getD j 0) s) =
      (l.set j (max (l.getD j 0) s)).set i (max ((l.set j (max (l.getD j 0) s)).getD i 0) r) := by
  rw [getD_set l i j _ hi, getD_set l j i _ hj]
  by_cases h : i = j
  · subst h
    simp only [if_true, List.set_set]
    rw [Nat.max_assoc, Nat.max_assoc, Nat.max_comm r s]
  · have h2 : ¬ j = i := fun e => h e.symm
    rw [if_neg h, if_neg h2]
    exact List.set_comm _ _ l h

theorem Add_Add_comm (hll : HyperLogLog) (a b : List Byte) :
    (Add hll a).bind (fun hll1 => Add hll1 b) = (Add hll b).bind (fun hll1 => Add hll1 a) := by
  rw [Add_eq hll a, Add_eq hll b]
  by_cases ha : bucketIndex (Hash64 a) < hll.buckets.length
  · by_cases hb : bucketIndex (Hash64 b) < hll.buckets.length
    · simp only [ha, hb, if_true, Option.some_bind, Add_eq, List.length_set]
      rw [set_max_comm _ _ _ _ _ ha hb]
    · simp only [ha, hb, if_true, if_false, Option.some_bind, Option.none_bind, Add_eq,
        List.length_set]
  · by_cases hb : bucketIndex (Hash64 b) < hll.buckets.length
    · simp only [ha, hb, if_true, if_false, Option.some_bind, Option.none_bind, Add_eq,
        List.length_set]
    · simp only [ha, hb, if_false, Option.none_bind]

theorem AddAll_cons_cons (hll : HyperLogLog) (x y : List Byte) (l : List (List Byte)) :
    AddAll hll (x :: y :: l) =
      ((Add hll x).bind (fun hll1 => Add hll1 y)).bind (fun hll2 => AddAll hll2 l) := by
  cases hx : Add hll x with
  | none => simp only [AddAll, hx, Option.none_bind]
  | some hll1 => simp only [AddAll, hx, Option.some_bind]

theorem AddAll_perm (xs ys : List (List Byte)) (h : xs.Perm ys) :
    ∀ hll : HyperLogLog, AddAll hll xs = AddAll hll ys := by
  induction h with
  | nil => intro hll; rfl
  | cons x _ ih =>
    intro hll
    cases hx : Add hll x with
    | none => simp only [AddAll, hx, Option.none_bind]
    | some hll1 =>
      simp only [AddAll, hx, Option.some_bind]
      exact ih hll1
  | swap x y l =>
    intro hll
    rw [AddAll_cons_cons, AddAll_cons_cons, Add_Add_comm hll y x]
  | trans _ _ ih1 ih2 => intro hll; rw [ih1, ih2]

theorem AddAll_append : ∀ (xs ys : List (List Byte)) (hll : HyperLogLog),
    AddAll hll (xs ++ ys) = (AddAll hll xs).bind (fun hll1 => AddAll hll1 ys) := by
  intro xs
  induction xs with
  | nil => intro ys hll; rfl
  | cons x xs ih =>
    intro ys hll
    cases hx : Add hll x with
    | none => simp only [List.cons_append, AddAll, hx, Option.none_bind]
    | some hll1 =>
      simp only [List.cons_append, AddAll, hx, Option.some_bind]
      exact ih ys hll1

theorem Add_noop (hll : HyperLogLog) (data : List Byte)
    (hi : bucketIndex (Hash64 data) < hll.buckets.length)
    (hr : rank (Hash64 data) ≤ hll.buckets.getD (bucketIndex (Hash64 data)) 0) :
    Add hll data = some hll := by
  rw [List.getD_eq_getElem _ _ hi] at hr
  unfold Add
  simp only [List.getElem?_eq_getElem hi]
  rw [if_neg (Nat.not_lt.2 hr)]

theorem Add_rank_le (hll : HyperLogLog) (data : List Byte) (hlen : hll.buckets.length = m) :
    rank (Hash64 data) ≤
      ((hll.buckets.set (bucketIndex (Hash64 data))
        (max (hll.buckets.getD (bucketIndex (Hash64 data)) 0) (rank (Hash64 data)))).getD
          (bucketIndex (Hash64 data)) 0) := by
  rw [getD_set _ _ _ _ (by rw [hlen]; exact bucketIndex_Hash64_lt data), if_pos rfl]
  exact Nat.le_max_right _ _

theorem AddAll_contains_noop (hll : HyperLogLog) (hlen : hll.buckets.length = m)
    (front back : List (List Byte)) (e : List Byte) :
    ∃ hll1, AddAll hll (front ++ e :: back) = some hll1 ∧ hll1.buckets.length = m ∧
      Add hll1 e = some hll1 := by
  obtain ⟨s1, h1, hlen1, _⟩ := AddAll_total_mono front hll hlen
  have hadd := Add_isSome s1 e hlen1
  obtain ⟨s3, h3, hlen3, hmono3⟩ :=
    AddAll_total_mono back
      { buckets := s1.buckets.set (bucketIndex (Hash64 e))
          (max (s1.buckets.getD (bucketIndex (Hash64 e)) 0) (rank (Hash64 e))) }
      (by simp [hlen1])
  refine ⟨s3, ?_, hlen3, ?_⟩
  · rw [AddAll_append, h1]
    simp only [Option.some_bind, AddAll, hadd]
    exact h3
  · apply Add_noop
    · rw [hlen3]; exact bucketIndex_Hash64_lt e
    · exact Nat.le_trans (Add_rank_le s1 e hlen1) (hmono3 _)

theorem AddAll_replicate_noop (hll : HyperLogLog) (e : List Byte) (h : Add hll e = some hll) :
    ∀ n : Nat, AddAll hll (List.replicate n e) = some hll := by
  intro n
  induction n with
  | zero => rfl
  | succ n ih =>
    simp only [List.replicate_succ, AddAll, h, Option.some_bind]
    exact ih

theorem NewHyperLogLog_length : NewHyperLogLog.buckets.length = m := by
  simp [NewHyperLogLog]

/-! ## Lemmas: `Estimate` in exact arithmetic -/

theorem m_eq : m = 4096 := by decide

theorem bucketSum_exact_foldl (Log : ℚ → ℚ) : ∀ (bs : List Nat) (acc : ℚ),
    bs.foldl (fun (sum : ℚ) (v : Nat) => (exactOps Log).add sum
      ((exactOps Log).div ((exactOps Log).lit 1)
        ((exactOps Log).Pow ((exactOps Log).lit 2) ((exactOps Log).lit v)))) acc =
      acc + (bs.map (fun v : Nat => (2 : ℚ) ^ (-(v : ℤ)))).sum := by
  intro bs
  induction bs with
  | nil => intro acc; simp
  | cons b bs ih =>
    intro acc
    rw [List.foldl_cons, ih]
    simp only [exactOps, List.map_cons, List.sum_cons, Int.floor_natCast, zpow_natCast,
      zpow_neg, one_div]
    ring

theorem bucketSum_exact (Log : ℚ → ℚ) (bs : List Nat) :
    bucketSum (exactOps Log) bs = (bs.map (fun v : Nat => (2 : ℚ) ^ (-(v : ℤ)))).sum := by
  unfold bucketSum
  rw [bucketSum_exact_foldl]
  simp [exactOps]

theorem alphaMM_exact (Log : ℚ → ℚ) :
    alphaMM (exactOps Log) = 0.7213 / (1 + 1.079 / 4096) * 4096 ^ 2 := by
  simp only [alphaMM, exactOps, m_eq]
  norm_num

theorem rawEstimate_exact (Log : ℚ → ℚ) (bs : List Nat) :
    rawEstimate (exactOps Log) bs =
      0.7213 / (1 + 1.079 / 4096) * 4096 ^ 2 /
        (bs.map (fun v : Nat => (2 : ℚ) ^ (-(v : ℤ)))).sum := by
  unfold rawEstimate
  rw [alphaMM_exact, bucketSum_exact]
  rfl

theorem countZeros_foldl : ∀ (bs : List Nat) (acc : Nat),
    bs.foldl (fun zeros v => if v = 0 then zeros + 1 else zeros) acc = acc + bs.count 0 := by
  intro bs
  induction bs with
  | nil => intro acc; simp
  | cons b bs ih =>
    intro acc
    rw [List.foldl_cons, ih]
    by_cases hb : b = 0
    · subst hb
      simp only [if_true, List.count_cons_self]
      omega
    · rw [if_neg hb, List.count_cons_of_ne (Ne.symm hb)]

theorem countZeros_eq_count (bs : List Nat) : countZeros bs = bs.count 0 := by
  unfold countZeros
  rw [countZeros_foldl]
  simp

theorem estimateValue_small_zeros {F : Type} (ops : Float64Ops F) (hll : HyperLogLog)
    (hs : smallRange ops hll.buckets = true) (hz : 0 < countZeros hll.buckets) :
    estimateValue ops hll = ops.mul (ops.lit m) (ops.Log (smallLogArg ops hll.buckets)) := by
  unfold estimateValue
  rw [if_pos hs, if_pos hz]

theorem estimateValue_small_nozeros {F : Type} (ops : Float64Ops F) (hll : HyperLogLog)
    (hs : smallRange ops hll.buckets = true) (hz : countZeros hll.buckets = 0) :
    estimateValue ops hll = rawEstimate ops hll.buckets := by
  unfold estimateValue
  rw [if_pos hs, if_neg (by omega)]

theorem estimateValue_large {F : Type} (ops : Float64Ops F) (hll : HyperLogLog)
    (hs : smallRange ops hll.buckets = false) (hl : largeRange ops hll.buckets = true) :
    estimateValue ops hll =
      ops.mul (ops.lit (-(2 ^ 32))) (ops.Log (largeLogArg ops hll.buckets)) := by
  unfold estimateValue
  rw [if_neg (by rw [hs]; exact Bool.false_ne_true), if_pos hl]

theorem estimateValue_mid {F : Type} (ops : Float64Ops F) (hll : HyperLogLog)
    (hs : smallRange ops hll.buckets = false) (hl : largeRange ops hll.buckets = false) :
    estimateValue ops hll = rawEstimate ops hll.buckets := by
  unfold estimateValue
  rw [if_neg (by rw [hs]; exact Bool.false_ne_true),
    if_neg (by rw [hl]; exact Bool.false_ne_true)]

theorem smallRange_exact (Log : ℚ → ℚ) (bs : List Nat) :
    smallRange (exactOps Log) bs = decide (rawEstimate (exactOps Log) bs ≤ 5 / 2 * 4096) := by
  unfold smallRange
  simp only [exactOps, m_eq]
  norm_num

theorem largeRange_exact (Log : ℚ → ℚ) (bs : List Nat) :
    largeRange (exactOps Log) bs = decide (2 ^ 32 / 30 < rawEstimate (exactOps Log) bs) := by
  unfold largeRange
  simp only [exactOps]

theorem sum_replicate_exact (n v : Nat) :
    ((List.replicate n v).map (fun v : Nat => (2 : ℚ) ^ (-(v : ℤ)))).sum =
      n * (2 : ℚ) ^ (-(v : ℤ)) := by
  rw [List.map_replicate, List.sum_replicate, nsmul_eq_mul]

theorem rawEstimate_replicate (Log : ℚ → ℚ) (v : Nat) :
    rawEstimate (exactOps Log) (List.replicate m v) =
      0.7213 / (1 + 1.079 / 4096) * 4096 * 2 ^ v := by
  rw [rawEstimate_exact, sum_replicate_exact, m_eq, zpow_neg, zpow_natCast]
  have h2 : (2 : ℚ) ^ v ≠ 0 := pow_ne_zero _ (by norm_num)
  field_simp
  ring

theorem countZeros_fresh : countZeros NewHyperLogLog.buckets = m := by
  rw [countZeros_eq_count]
  simp [NewHyperLogLog]

theorem rawEstimate_eq_spec (Log : ℚ → ℚ) (bs : List Nat) :
    rawEstimate (exactOps Log) bs = specRawEstimate bs := by
  rw [rawEstimate_exact]
  unfold specRawEstimate specAlpha
  rw [m_eq]
  norm_num

theorem specRawEstimate_replicate (v : Nat) :
    specRawEstimate (List.replicate m v) = 0.7213 / (1 + 1.079 / 4096) * 4096 * 2 ^ v := by
  rw [← rawEstimate_eq_spec (fun x => x), rawEstimate_replicate]

theorem smallRange_iff (Log : ℚ → ℚ) (bs : List Nat) :
    smallRange (exactOps Log) bs = true ↔ specRawEstimate bs ≤ 2.5 * (m : ℚ) := by
  rw [smallRange_exact, rawEstimate_eq_spec, m_eq, decide_eq_true_iff]
  norm_num

theorem largeRange_iff (Log : ℚ → ℚ) (bs : List Nat) :
    largeRange (exactOps Log) bs = true ↔ 2 ^ 32 / 30 < specRawEstimate bs := by
  rw [largeRange_exact, rawEstimate_eq_spec, decide_eq_true_iff]

theorem toUint64_exact (Log : ℚ → ℚ) (x : ℚ) : (exactOps Log).toUint64 x = ⌊x⌋₊ := by
  simp only [exactOps]
  exact Int.floor_toNat x

theorem specRawEstimate_nonneg (bs : List Nat) : 0 ≤ specRawEstimate bs := by
  unfold specRawEstimate specAlpha
  apply div_nonneg
  · rw [m_eq]; norm_num
  · apply List.sum_nonneg
    intro x hx
    obtain ⟨v, _, rfl⟩ := List.mem_map.1 hx
    exact le_of_lt (zpow_pos (by norm_num) _)

theorem smallLogArg_exact (Log : ℚ → ℚ) (bs : List Nat) :
    smallLogArg (exactOps Log) bs = (m : ℚ) / (bs.count 0 : ℚ) := by
  unfold smallLogArg
  rw [countZeros_eq_count]
  rfl

theorem largeLogArg_exact (Log : ℚ → ℚ) (bs : List Nat) :
    largeLogArg (exactOps Log) bs = 1 - specRawEstimate bs / 2 ^ 32 := by
  unfold largeLogArg
  rw [rawEstimate_eq_spec]
  rfl

/-! ## The bucket update rule -/

/-- C1. For every estimator state (a bucket array of length `m`) and every byte sequence
`e` with `h = Hash64 e`, `Add e` returns, and the bucket array it produces has the same
length and equals the old one at every position except `h >> 52`, where the new value is
the maximum of the old value and `LeadingZeros64 ((h << 12 mod 2^64) | 2^11) + 1`. -/
theorem Add_updates_selected_bucket (hll : HyperLogLog) (e : List Byte)
    (hlen : hll.buckets.length = m) :
    ∃ hll1, Add hll e = some hll1 ∧ hll1.buckets.length = m ∧
      Hash64 e >>> 52 < m ∧
      ∀ i, i < m →
        hll1.buckets.getD i 0 =
          if i = Hash64 e >>> 52 then
            max (hll.buckets.getD i 0)
              (LeadingZeros64 (((Hash64 e <<< 12) % 2 ^ 64) ||| 2 ^ 11) + 1)
          else hll.buckets.getD i 0 := by
  have hidx : bucketIndex (Hash64 e) < m := bucketIndex_Hash64_lt e
  refine ⟨_, Add_isSome hll e hlen, ?_, hidx, ?_⟩
  · simp [hlen]
  · intro i _
    have hr : rank (Hash64 e) =
        LeadingZeros64 (((Hash64 e <<< 12) % 2 ^ 64) ||| 2 ^ 11) + 1 := rank_eq _
    have hb : bucketIndex (Hash64 e) = Hash64 e >>> 52 := rfl
    rw [← hr, ← hb]
    show (hll.buckets.set _ _).getD i 0 = _
    rw [getD_set _ _ _ _ (by rw [hlen]; exact hidx)]
    by_cases h : i = bucketIndex (Hash64 e)
    · rw [if_pos h, if_pos h, h]
    · rw [if_neg h, if_neg h]

theorem Add_updates_selected_bucket_witness :
    NewHyperLogLog.buckets.length = m ∧
    ∃ hll1, Add NewHyperLogLog [97] = some hll1 ∧ hll1.buckets.length = m ∧
      Hash64 [97] >>> 52 < m ∧
      ∀ i, i < m →
        hll1.buckets.getD i 0 =
          if i = Hash64 [97] >>> 52 then
            max (NewHyperLogLog.buckets.getD i 0)
              (LeadingZeros64 (((Hash64 [97] <<< 12) % 2 ^ 64) ||| 2 ^ 11) + 1)
          else NewHyperLogLog.buckets.getD i 0 :=
  ⟨by simp [NewHyperLogLog], Add_updates_selected_bucket NewHyperLogLog [97] (by simp [NewHyperLogLog])⟩

/-- C2. For every hash value `h`, the rank computed by `Add` lies between `1` and
`64 - p + 1 = 53`, and the `uint8` arithmetic that computes it does not wrap around: it
is `LeadingZeros64 ((h << p) | (1 << (p - 1))) + 1` as a natural number. -/
theorem rank_in_range (h : Nat) :
    1 ≤ rank h ∧ rank h ≤ 64 - p + 1 ∧ 64 - p + 1 = 53 ∧ rank h < 2 ^ 8 ∧
      rank h = LeadingZeros64 (((h <<< p) % 2 ^ 64) ||| (1 <<< (p - 1))) + 1 := by
  have hb := rank_bounds h
  have hp : p = 12 := rfl
  refine ⟨hb.1, hb.2, by decide, ?_, rank_eq h⟩
  omega

/-- C3. In every state reachable from `NewHyperLogLog()` by a finite sequence of `Add`
calls, every bucket value is at most `64 - p + 1 = 53`. -/
theorem reachable_bucket_le (hll : HyperLogLog) (h : Reachable hll) :
    64 - p + 1 = 53 ∧ ∀ v, v ∈ hll.buckets → v ≤ 64 - p + 1 := by
  refine ⟨by decide, ?_⟩
  induction h with
  | init =>
    intro v hv
    simp only [NewHyperLogLog] at hv
    rw [List.eq_of_mem_replicate hv]
    exact Nat.zero_le _
  | step hll hll1 data hr hadd ih =>
    intro v hv
    rw [Add_isSome hll data (Reachable_length hll hr)] at hadd
    cases hadd
    rcases List.mem_or_eq_of_mem_set hv with hmem | heq
    · exact ih v hmem
    · rw [heq]
      apply Nat.max_le.2
      refine ⟨?_, (rank_bounds _).2⟩
      have hi : bucketIndex (Hash64 data) < hll.buckets.length := by
        rw [Reachable_length hll hr]; exact bucketIndex_Hash64_lt data
      rw [List.getD_eq_getElem _ _ hi]
      exact ih _ (List.getElem_mem _)

theorem reachable_bucket_le_witness :
    Reachable { buckets := NewHyperLogLog.buckets.set 2806 3 } ∧
    (64 - p + 1 = 53 ∧
      ∀ v, v ∈ (HyperLogLog.mk (NewHyperLogLog.buckets.set 2806 3)).buckets → v ≤ 64 - p + 1) :=
  ⟨Reachable.step _ _ [97] Reachable.init Add_NewHyperLogLog_a,
   reachable_bucket_le _ (Reachable.step _ _ [97] Reachable.init Add_NewHyperLogLog_a)⟩

/-- C4. For every estimator state (a bucket array of length `m`), every byte sequence `e`
and every bucket index `i < m`, `Add e` returns and the value of bucket `i` after it is
greater than or equal to its value before; hence every sequence of `Add` calls returns
and no bucket is lower after it than before it. -/
theorem Add_never_decreases (hll : HyperLogLog) (hlen : hll.buckets.length = m) :
    (∀ e : List Byte, ∃ hll1, Add hll e = some hll1 ∧
      ∀ i, i < m → hll.buckets.getD i 0 ≤ hll1.buckets.getD i 0) ∧
    (∀ es : List (List Byte), ∃ hll1, AddAll hll es = some hll1 ∧
      ∀ i, i < m → hll.buckets.getD i 0 ≤ hll1.buckets.getD i 0) := by
  constructor
  · intro e
    exact ⟨_, Add_isSome hll e hlen, fun i _ => Add_getD_le hll e hlen i⟩
  · intro es
    obtain ⟨hll1, h1, _, hmono⟩ := AddAll_total_mono es hll hlen
    exact ⟨hll1, h1, fun i _ => hmono i⟩

theorem Add_never_decreases_witness :
    NewHyperLogLog.buckets.length = m ∧
    ((∀ e : List Byte, ∃ hll1, Add NewHyperLogLog e = some hll1 ∧
      ∀ i, i < m → NewHyperLogLog.buckets.getD i 0 ≤ hll1.buckets.getD i 0) ∧
    (∀ es : List (List Byte), ∃ hll1, AddAll NewHyperLogLog es = some hll1 ∧
      ∀ i, i < m → NewHyperLogLog.buckets.getD i 0 ≤ hll1.buckets.getD i 0)) :=
  ⟨by simp [NewHyperLogLog], Add_never_decreases NewHyperLogLog (by simp [NewHyperLogLog])⟩

/-- C5. For every two lists of byte sequences that are permutations of each other, adding
all of the one to a fresh estimator and all of the other to another fresh estimator
returns in both cases, with identical bucket arrays and therefore identical `Estimate()`
results under every interpretation of the floating-point operations; and on every state
`Add(a)` then `Add(b)` equals `Add(b)` then `Add(a)`. -/
theorem AddAll_permutation_invariant (xs ys : List (List Byte)) (h : xs.Perm ys) :
    (∃ hll1 hll2, AddAll NewHyperLogLog xs = some hll1 ∧ AddAll NewHyperLogLog ys = some hll2 ∧
      hll1.buckets = hll2.buckets ∧
      ∀ (F : Type) (ops : Float64Ops F), Estimate ops hll1 = Estimate ops hll2) ∧
    (∀ (hll : HyperLogLog) (a b : List Byte),
      (Add hll a).bind (fun hll1 => Add hll1 b) = (Add hll b).bind (fun hll1 => Add hll1 a)) := by
  refine ⟨?_, Add_Add_comm⟩
  obtain ⟨hll1, h1, _, _⟩ := AddAll_total_mono xs NewHyperLogLog NewHyperLogLog_length
  refine ⟨hll1, hll1, h1, ?_, rfl, fun _ _ => rfl⟩
  rw [← AddAll_perm xs ys h NewHyperLogLog]
  exact h1

theorem AddAll_permutation_invariant_witness :
    List.Perm [[97], [98]] [[98], ([97] : List Byte)] ∧
    ((∃ hll1 hll2, AddAll NewHyperLogLog [[97], [98]] = some hll1 ∧
        AddAll NewHyperLogLog [[98], [97]] = some hll2 ∧
      hll1.buckets = hll2.buckets ∧
      ∀ (F : Type) (ops : Float64Ops F), Estimate ops hll1 = Estimate ops hll2) ∧
    (∀ (hll : HyperLogLog) (a b : List Byte),
      (Add hll a).bind (fun hll1 => Add hll1 b) = (Add hll b).bind (fun hll1 => Add hll1 a))) :=
  ⟨List.Perm.swap _ _ _, AddAll_permutation_invariant _ _ (List.Perm.swap _ _ _)⟩

/-- C6. For every byte sequence `e` and every state reached from the fresh estimator by a
sequence of `Add` calls that contains `Add(e)`, with any other calls before and after it,
calling `Add(e)` again, any number of times, returns the same state: the bucket array is
unchanged and so is `Estimate()`, under every interpretation of the floating-point
operations. -/
theorem Add_duplicate_is_noop (front back : List (List Byte)) (e : List Byte) :
    ∃ hll, AddAll NewHyperLogLog (front ++ e :: back) = some hll ∧
      Add hll e = some hll ∧
      (∀ n : Nat, AddAll hll (List.replicate n e) = some hll) ∧
      ∀ (F : Type) (ops : Float64Ops F),
        (Add hll e).map (Estimate ops) = some (Estimate ops hll) := by
  obtain ⟨hll, h1, _, h2⟩ := AddAll_contains_noop NewHyperLogLog NewHyperLogLog_length front back e
  refine ⟨hll, h1, h2, AddAll_replicate_noop hll e h2, ?_⟩
  intro F ops
  rw [h2]
  rfl

/-! ## The branches of `Estimate` -/

/-- C7. `Estimate()` on a freshly constructed estimator (all `m = 4096` buckets zero)
takes the small-range branch with `zeros = m`, its value before the conversion is
`m * ln(m / m)`, and it returns exactly `0`; in exact arithmetic, for every logarithm
with `ln 1 = 0`. -/
theorem Estimate_fresh (Log : ℚ → ℚ) (hLog : Log 1 = 0) :
    m = 4096 ∧
    smallRange (exactOps Log) NewHyperLogLog.buckets = true ∧
    countZeros NewHyperLogLog.buckets = m ∧
    estimateValue (exactOps Log) NewHyperLogLog = (m : ℚ) * Log ((m : ℚ) / (m : ℚ)) ∧
    Estimate (exactOps Log) NewHyperLogLog = 0 := by
  have hs : smallRange (exactOps Log) NewHyperLogLog.buckets = true := by
    have hraw : rawEstimate (exactOps Log) NewHyperLogLog.buckets =
        0.7213 / (1 + 1.079 / 4096) * 4096 * 2 ^ 0 := rawEstimate_replicate Log 0
    rw [smallRange_exact, hraw]
    norm_num
  have hz : countZeros NewHyperLogLog.buckets = m := countZeros_fresh
  have hv : estimateValue (exactOps Log) NewHyperLogLog = (m : ℚ) * Log ((m : ℚ) / (m : ℚ)) := by
    rw [estimateValue_small_zeros _ _ hs (by rw [hz, m_eq]; decide)]
    unfold smallLogArg
    rw [hz]
    rfl
  refine ⟨m_eq, hs, hz, hv, ?_⟩
  unfold Estimate
  rw [hv, m_eq]
  have h1 : ((4096 : Nat) : ℚ) / ((4096 : Nat) : ℚ) = 1 := by norm_num
  rw [h1, hLog]
  simp [exactOps]

theorem Estimate_fresh_witness :
    tangentLog 1 = 0 ∧
    (m = 4096 ∧
    smallRange (exactOps tangentLog) NewHyperLogLog.buckets = true ∧
    countZeros NewHyperLogLog.buckets = m ∧
    estimateValue (exactOps tangentLog) NewHyperLogLog =
      (m : ℚ) * tangentLog ((m : ℚ) / (m : ℚ)) ∧
    Estimate (exactOps tangentLog) NewHyperLogLog = 0) :=
  ⟨by norm_num [tangentLog], Estimate_fresh tangentLog (by norm_num [tangentLog])⟩

/-- C10, the claim as stated fails: the bucket array of length `m` with every value `21`
satisfies the data-model invariants, `Estimate()` takes the large-range branch on it,
and the argument `1 - E/2^32` of its logarithm is negative. -/
theorem largeLogArg_negative_example :
    (List.replicate m 21).length = m ∧
    (∀ v, v ∈ List.replicate m 21 → v ≤ 64 - p + 1) ∧
    smallRange (exactOps tangentLog) (List.replicate m 21) = false ∧
    largeRange (exactOps tangentLog) (List.replicate m 21) = true ∧
    largeLogArg (exactOps tangentLog) (List.replicate m 21) < 0 := by
  refine ⟨List.length_replicate _ _, ?_, ?_, ?_, ?_⟩
  · intro v hv
    rw [List.eq_of_mem_replicate hv]
    decide
  · rw [← Bool.not_eq_true, smallRange_iff, specRawEstimate_replicate, m_eq]
    norm_num
  · rw [largeRange_iff, specRawEstimate_replicate]
    norm_num
  · rw [largeLogArg_exact, specRawEstimate_replicate]
    norm_num

/-- C10, amended. For every bucket array of length `m`: in the small-range branch with
`zeros > 0` the argument `m / zeros` of the logarithm is at least `1`, hence strictly
positive; whenever the large-range branch is taken the argument `1 - E/2^32` is below `1`
and is strictly positive exactly when `E < 2^32`; and in every case other than the
large-range branch with `E >= 2^32` the value before truncation is non-negative, for every
logarithm that is non-negative from `1` on and non-positive on `(0, 1]`. -/
theorem Estimate_log_args (Log : ℚ → ℚ) (hll : HyperLogLog)
    (hlen : hll.buckets.length = m)
    (hLog1 : ∀ x : ℚ, 1 ≤ x → 0 ≤ Log x)
    (hLog0 : ∀ x : ℚ, 0 < x → x ≤ 1 → Log x ≤ 0) :
    (smallRange (exactOps Log) hll.buckets = true → 0 < countZeros hll.buckets →
      1 ≤ smallLogArg (exactOps Log) hll.buckets) ∧
    (smallRange (exactOps Log) hll.buckets = false →
      largeRange (exactOps Log) hll.buckets = true →
      largeLogArg (exactOps Log) hll.buckets < 1 ∧
      (0 < largeLogArg (exactOps Log) hll.buckets ↔
        rawEstimate (exactOps Log) hll.buckets < 2 ^ 32)) ∧
    ((smallRange (exactOps Log) hll.buckets = true ∨
        largeRange (exactOps Log) hll.buckets = false ∨
        rawEstimate (exactOps Log) hll.buckets < 2 ^ 32) →
      0 ≤ estimateValue (exactOps Log) hll) := by
  have hm0 : (0 : ℚ) < (m : ℚ) := by rw [m_eq]; norm_num
  have hraw := specRawEstimate_nonneg hll.buckets
  have hsmallarg : 0 < countZeros hll.buckets → 1 ≤ smallLogArg (exactOps Log) hll.buckets := by
    intro hz
    rw [countZeros_eq_count] at hz
    rw [smallLogArg_exact]
    have hzq : (0 : ℚ) < (hll.buckets.count 0 : ℚ) := by exact_mod_cast hz
    rw [le_div_iff₀ hzq, one_mul]
    have hle : hll.buckets.count 0 ≤ m := by
      rw [← hlen]; exact List.count_le_length _ _
    exact_mod_cast hle
  have hlargepos : 0 < largeLogArg (exactOps Log) hll.buckets ↔
      rawEstimate (exactOps Log) hll.buckets < 2 ^ 32 := by
    rw [largeLogArg_exact, rawEstimate_eq_spec, sub_pos, div_lt_one (by norm_num)]
  have hlargelt : 2 ^ 32 / 30 < specRawEstimate hll.buckets →
      largeLogArg (exactOps Log) hll.buckets < 1 := by
    intro hl
    rw [largeLogArg_exact]
    have : 0 < specRawEstimate hll.buckets / 2 ^ 32 :=
      div_pos (lt_trans (by norm_num) hl) (by norm_num)
    linarith
  refine ⟨fun _ hz => hsmallarg hz, ?_, ?_⟩
  · intro _ hl
    exact ⟨hlargelt ((largeRange_iff Log hll.buckets).1 hl), hlargepos⟩
  · intro hcase
    by_cases hs : smallRange (exactOps Log) hll.buckets = true
    · by_cases hz : 0 < countZeros hll.buckets
      · rw [estimateValue_small_zeros _ _ hs hz]
        exact mul_nonneg (le_of_lt hm0) (hLog1 _ (hsmallarg hz))
      · rw [estimateValue_small_nozeros _ _ hs (by omega), rawEstimate_eq_spec]
        exact hraw
    · have hs2 : smallRange (exactOps Log) hll.buckets = false := by
        rw [← Bool.not_eq_true]; exact hs
      by_cases hl : largeRange (exactOps Log) hll.buckets = true
      · have hlt : rawEstimate (exactOps Log) hll.buckets < 2 ^ 32 := by
          rcases hcase with h | h | h
          · exact absurd h hs
          · rw [hl] at h; exact absurd h (by decide)
          · exact h
        rw [estimateValue_large _ _ hs2 hl]
        have harg0 := hlargepos.2 hlt
        have harg1 := hlargelt ((largeRange_iff Log hll.buckets).1 hl)
        have hlog := hLog0 _ harg0 (le_of_lt harg1)
        show (0 : ℚ) ≤ (-(2 ^ 32)) * Log (largeLogArg (exactOps Log) hll.buckets)
        nlinarith
      · have hl2 : largeRange (exactOps Log) hll.buckets = false := by
          rw [← Bool.not_eq_true]; exact hl
        rw [estimateValue_mid _ _ hs2 hl2, rawEstimate_eq_spec]
        exact hraw

theorem Estimate_log_args_witness :
    (HyperLogLog.mk (List.replicate m 17)).buckets.length = m ∧
    (∀ x : ℚ, 1 ≤ x → 0 ≤ tangentLog x) ∧
    (∀ x : ℚ, 0 < x → x ≤ 1 → tangentLog x ≤ 0) ∧
    ((smallRange (exactOps tangentLog) (HyperLogLog.mk (List.replicate m 17)).buckets = true →
      0 < countZeros (HyperLogLog.mk (List.replicate m 17)).buckets →
      1 ≤ smallLogArg (exactOps tangentLog) (HyperLogLog.mk (List.replicate m 17)).buckets) ∧
    (smallRange (exactOps tangentLog) (HyperLogLog.mk (List.replicate m 17)).buckets = false →
      largeRange (exactOps tangentLog) (HyperLogLog.mk (List.replicate m 17)).buckets = true →
      largeLogArg (exactOps tangentLog) (HyperLogLog.mk (List.replicate m 17)).buckets < 1 ∧
      (0 < largeLogArg (exactOps tangentLog) (HyperLogLog.mk (List.replicate m 17)).buckets ↔
        rawEstimate (exactOps tangentLog) (HyperLogLog.mk (List.replicate m 17)).buckets <
          2 ^ 32)) ∧
    ((smallRange (exactOps tangentLog) (HyperLogLog.mk (List.replicate m 17)).buckets = true ∨
        largeRange (exactOps tangentLog) (HyperLogLog.mk (List.replicate m 17)).buckets = false ∨
        rawEstimate (exactOps tangentLog) (HyperLogLog.mk (List.replicate m 17)).buckets <
          2 ^ 32) →
      0 ≤ estimateValue (exactOps tangentLog) (HyperLogLog.mk (List.replicate m 17)))) :=
  ⟨List.length_replicate _ _,
   fun x hx => by unfold tangentLog; linarith,
   fun x _ hx => by unfold tangentLog; linarith,
   Estimate_log_args tangentLog (HyperLogLog.mk (List.replicate m 17))
     (List.length_replicate _ _)
     (fun x hx => by unfold tangentLog; linarith)
     (fun x _ hx => by unfold tangentLog; linarith)⟩

/-! ## Lemmas: the sum, the remainder and the zero count -/

theorem spec_sum_pos : ∀ (bs : List Nat), bs ≠ [] →
    0 < (bs.map (fun v : Nat => (2 : ℚ) ^ (-(v : ℤ)))).sum := by
  intro bs hbs
  cases bs with
  | nil => exact absurd rfl hbs
  | cons b bs =>
    rw [List.map_cons, List.sum_cons]
    have h1 : (0 : ℚ) < (2 : ℚ) ^ (-(b : ℤ)) := zpow_pos (by norm_num) _
    have h2 : (0 : ℚ) ≤ (bs.map (fun v : Nat => (2 : ℚ) ^ (-(v : ℤ)))).sum := by
      apply List.sum_nonneg
      intro x hx
      obtain ⟨v, _, rfl⟩ := List.mem_map.1 hx
      exact le_of_lt (zpow_pos (by norm_num) _)
    linarith

theorem alphaMM_exact_pos (Log : ℚ → ℚ) : 0 < alphaMM (exactOps Log) := by
  rw [alphaMM_exact]
  norm_num

theorem remainder_eq (hash : Nat) : remainder hash = 2 ^ 12 * (hash % 2 ^ 52) + 2 ^ 11 := by
  unfold remainder
  have hp : p = 12 := rfl
  rw [hp, Nat.shiftLeft_eq, Nat.one_shiftLeft]
  have h1 : hash * 2 ^ 12 % 2 ^ 64 = 2 ^ 12 * (hash % 2 ^ 52) := by
    have := Nat.mul_mod_mul_right (2 ^ 12) hash (2 ^ 52)
    rw [Nat.mul_comm (hash % 2 ^ 52)] at this
    exact this
  rw [h1]
  exact (Nat.mul_add_lt_is_or (by decide) _).symm

theorem Len64_le_iff (x k : Nat) (hk : k < 64) :
    Len64 x ≤ k ↔ x < 2 ^ k := by
  constructor
  · intro h
    by_contra hge
    have := lenAux_ge 64 k x hk (Nat.le_of_not_lt hge)
    unfold Len64 at h
    omega
  · intro h
    exact lenAux_le 64 k x h

/-! ## Safety of `Estimate` and `Add`, the remainder -/

/-- C11. For every bucket array of length at least `1`, the sum over all buckets of
`2^(-value)` computed in `Estimate()` is strictly positive, so the divisor of the raw
estimate `alpha_m * m^2 / sum` is not zero; in exact arithmetic. -/
theorem bucketSum_pos (Log : ℚ → ℚ) (buckets : List Nat) (hlen : 1 ≤ buckets.length) :
    bucketSum (exactOps Log) buckets = (buckets.map (fun v : Nat => (2 : ℚ) ^ (-(v : ℤ)))).sum ∧
    0 < bucketSum (exactOps Log) buckets ∧
    bucketSum (exactOps Log) buckets ≠ 0 ∧
    rawEstimate (exactOps Log) buckets * bucketSum (exactOps Log) buckets =
      alphaMM (exactOps Log) := by
  have hne : buckets ≠ [] := by
    intro h
    rw [h] at hlen
    exact absurd hlen (by decide)
  have hpos : 0 < bucketSum (exactOps Log) buckets := by
    rw [bucketSum_exact]
    exact spec_sum_pos buckets hne
  refine ⟨bucketSum_exact Log buckets, hpos, ne_of_gt hpos, ?_⟩
  unfold rawEstimate
  show alphaMM (exactOps Log) / bucketSum (exactOps Log) buckets *
    bucketSum (exactOps Log) buckets = alphaMM (exactOps Log)
  exact div_mul_cancel₀ _ (ne_of_gt hpos)

theorem bucketSum_pos_witness :
    1 ≤ NewHyperLogLog.buckets.length ∧
    (bucketSum (exactOps tangentLog) NewHyperLogLog.buckets =
      (NewHyperLogLog.buckets.map (fun v : Nat => (2 : ℚ) ^ (-(v : ℤ)))).sum ∧
    0 < bucketSum (exactOps tangentLog) NewHyperLogLog.buckets ∧
    bucketSum (exactOps tangentLog) NewHyperLogLog.buckets ≠ 0 ∧
    rawEstimate (exactOps tangentLog) NewHyperLogLog.buckets *
        bucketSum (exactOps tangentLog) NewHyperLogLog.buckets =
      alphaMM (exactOps tangentLog)) :=
  ⟨by rw [NewHyperLogLog_length, m_eq]; decide,
   bucketSum_pos tangentLog NewHyperLogLog.buckets
     (by rw [NewHyperLogLog_length, m_eq]; decide)⟩

/-- C12. For every reachable state and every byte sequence `e`, the empty one included,
the bucket index `hash >> (64 - p)` computed by `Add` is strictly less than the length of
the bucket array, so `Add` returns; and the length of the bucket array is exactly
`m = 2^p = 4096` after construction and after every `Add`. -/
theorem Add_index_in_bounds (hll : HyperLogLog) (h : Reachable hll) :
    m = 2 ^ p ∧ m = 4096 ∧
    NewHyperLogLog.buckets.length = m ∧
    hll.buckets.length = m ∧
    (∀ e : List Byte, Hash64 e >>> (64 - p) < hll.buckets.length ∧
      ∃ hll1, Add hll e = some hll1 ∧ hll1.buckets.length = m) ∧
    ∃ hll1, Add hll [] = some hll1 ∧ hll1.buckets.length = m := by
  have hlen := Reachable_length hll h
  have key : ∀ e : List Byte, Hash64 e >>> (64 - p) < hll.buckets.length ∧
      ∃ hll1, Add hll e = some hll1 ∧ hll1.buckets.length = m := by
    intro e
    refine ⟨?_, _, Add_isSome hll e hlen, ?_⟩
    · rw [hlen]
      exact bucketIndex_Hash64_lt e
    · simp [hlen]
  exact ⟨by decide, m_eq, NewHyperLogLog_length, hlen, key, (key []).2⟩

theorem Add_index_in_bounds_witness :
    Reachable { buckets := NewHyperLogLog.buckets.set 2806 3 } ∧
    (m = 2 ^ p ∧ m = 4096 ∧
    NewHyperLogLog.buckets.length = m ∧
    (HyperLogLog.mk (NewHyperLogLog.buckets.set 2806 3)).buckets.length = m ∧
    (∀ e : List Byte,
      Hash64 e >>> (64 - p) < (HyperLogLog.mk (NewHyperLogLog.buckets.set 2806 3)).buckets.length ∧
      ∃ hll1, Add (HyperLogLog.mk (NewHyperLogLog.buckets.set 2806 3)) e = some hll1 ∧
        hll1.buckets.length = m) ∧
    ∃ hll1, Add (HyperLogLog.mk (NewHyperLogLog.buckets.set 2806 3)) [] = some hll1 ∧
      hll1.buckets.length = m) :=
  ⟨Reachable.step _ _ [97] Reachable.init Add_NewHyperLogLog_a,
   Add_index_in_bounds _ (Reachable.step _ _ [97] Reachable.init Add_NewHyperLogLog_a)⟩

/-- C15. For every hash value `h`, the remainder `(h << p) | (1 << (p-1))` with `p = 12`
is never zero, has bit `p - 1` set, and has at most `64 - p = 52` leading zeros; it has
exactly `52` if and only if the low `64 - p` bits of `h` are all zero. -/
theorem remainder_leading_zeros (h : Nat) :
    remainder h = ((h <<< p) % 2 ^ 64) ||| (1 <<< (p - 1)) ∧
    remainder h ≠ 0 ∧
    (remainder h).testBit (p - 1) = true ∧
    LeadingZeros64 (remainder h) ≤ 64 - p ∧ 64 - p = 52 ∧
    (LeadingZeros64 (remainder h) = 64 - p ↔ h % 2 ^ (64 - p) = 0) := by
  have hp : p = 12 := rfl
  have hge := remainder_ge h
  have hlen := Len64_remainder h
  have hbit : (remainder h).testBit (p - 1) = true := by
    unfold remainder
    rw [Nat.one_shiftLeft, Nat.testBit_or, Nat.testBit_two_pow_self, Bool.or_true]
  have hpos : 0 < 2 ^ (p - 1) := Nat.pos_pow_of_pos _ (by decide)
  refine ⟨rfl, by omega, hbit, ?_, by decide, ?_⟩
  · unfold LeadingZeros64
    omega
  · have hiff : Len64 (remainder h) ≤ 12 ↔ remainder h < 2 ^ 12 :=
      Len64_le_iff _ 12 (by decide)
    have hrem := remainder_eq h
    unfold LeadingZeros64
    rw [hp]
    rw [hp] at hlen
    constructor
    · intro hlz
      have h12 : Len64 (remainder h) ≤ 12 := by omega
      have := hiff.1 h12
      omega
    · intro hlow
      have hlow2 : h % 2 ^ 52 = 0 := hlow
      have hlt : remainder h < 2 ^ 12 := by
        rw [hrem, hlow2]
        decide
      have := hiff.2 hlt
      omega

/-! ## Lemmas: the content of the buckets after a sequence of `Add` -/

theorem foldl_max_init_le : ∀ (l : List Nat) (init : Nat), init ≤ l.foldl max init := by
  intro l
  induction l with
  | nil => intro init; exact Nat.le_refl _
  | cons a l ih =>
    intro init
    rw [List.foldl_cons]
    exact Nat.le_trans (Nat.le_max_left _ _) (ih _)

theorem foldl_max_mem_le : ∀ (l : List Nat) (init x : Nat), x ∈ l → x ≤ l.foldl max init := by
  intro l
  induction l with
  | nil => intro init x hx; cases hx
  | cons a l ih =>
    intro init x hx
    rw [List.foldl_cons]
    rcases List.mem_cons.1 hx with h | h
    · rw [h]
      exact Nat.le_trans (Nat.le_max_right _ _) (foldl_max_init_le l _)
    · exact ih _ x h

theorem foldl_max_eq_or_mem : ∀ (l : List Nat) (init : Nat),
    l.foldl max init = init ∨ l.foldl max init ∈ l := by
  intro l
  induction l with
  | nil => intro init; exact Or.inl rfl
  | cons a l ih =>
    intro init
    rw [List.foldl_cons]
    rcases ih (max init a) with h | h
    · rw [h]
      rcases Nat.le_total init a with hle | hle
      · rw [Nat.max_eq_right hle]
        exact Or.inr (List.mem_cons_self _ _)
      · rw [Nat.max_eq_left hle]
        exact Or.inl rfl
    · exact Or.inr (List.mem_cons_of_mem _ h)

theorem routedRanks_cons (e : List Byte) (es : List (List Byte)) (i : Nat) :
    routedRanks (e :: es) i =
      if bucketIndex (Hash64 e) = i then rank (Hash64 e) :: routedRanks es i
      else routedRanks es i := by
  unfold routedRanks
  by_cases h : bucketIndex (Hash64 e) = i
  · rw [if_pos h, List.filter_cons_of_pos (by simpa using h), List.map_cons]
  · rw [if_neg h, List.filter_cons_of_neg (by simpa using h)]

theorem mem_routedRanks (xs : List (List Byte)) (i v : Nat) :
    v ∈ routedRanks xs i ↔ ∃ x, x ∈ xs ∧ bucketIndex (Hash64 x) = i ∧ rank (Hash64 x) = v := by
  unfold routedRanks
  rw [List.mem_map]
  constructor
  · rintro ⟨x, hx, rfl⟩
    rw [List.mem_filter] at hx
    exact ⟨x, hx.1, by simpa using hx.2, rfl⟩
  · rintro ⟨x, hx, hi, rfl⟩
    exact ⟨x, List.mem_filter.2 ⟨hx, by simpa using hi⟩, rfl⟩

theorem AddAll_getD_foldl_max : ∀ (xs : List (List Byte)) (hll : HyperLogLog),
    hll.buckets.length = m →
    ∃ hll1, AddAll hll xs = some hll1 ∧ hll1.buckets.length = m ∧
      ∀ i, hll1.buckets.getD i 0 = (routedRanks xs i).foldl max (hll.buckets.getD i 0) := by
  intro xs
  induction xs with
  | nil =>
    intro hll hlen
    exact ⟨hll, rfl, hlen, fun _ => rfl⟩
  | cons e es ih =>
    intro hll hlen
    have hadd := Add_isSome hll e hlen
    obtain ⟨hll2, h2, hlen2, hval⟩ :=
      ih { buckets := hll.buckets.set (bucketIndex (Hash64 e))
            (max (hll.buckets.getD (bucketIndex (Hash64 e)) 0) (rank (Hash64 e))) }
        (by simp [hlen])
    refine ⟨hll2, ?_, hlen2, ?_⟩
    · simp only [AddAll, hadd, Option.some_bind]
      exact h2
    · intro i
      rw [hval i, routedRanks_cons]
      show (routedRanks es i).foldl max
        ((hll.buckets.set (bucketIndex (Hash64 e))
          (max (hll.buckets.getD (bucketIndex (Hash64 e)) 0) (rank (Hash64 e)))).getD i 0) = _
      rw [getD_set _ _ _ _ (by rw [hlen]; exact bucketIndex_Hash64_lt e)]
      by_cases h : i = bucketIndex (Hash64 e)
      · rw [if_pos h, if_pos h.symm, List.foldl_cons, h]
      · rw [if_neg h, if_neg (fun h2 => h h2.symm)]

theorem NewHyperLogLog_getD (i : Nat) : NewHyperLogLog.buckets.getD i 0 = 0 := by
  simp only [NewHyperLogLog, List.getD_eq_getElem?_getD, List.getElem?_getD_replicate_default_eq]

theorem maxRankAt_eq_zero_iff (xs : List (List Byte)) (i : Nat) :
    maxRankAt xs i = 0 ↔ ∀ x, x ∈ xs → bucketIndex (Hash64 x) ≠ i := by
  unfold maxRankAt
  constructor
  · intro h0 x hx hi
    have hmem : rank (Hash64 x) ∈ routedRanks xs i :=
      (mem_routedRanks xs i _).2 ⟨x, hx, hi, rfl⟩
    have hle := foldl_max_mem_le (routedRanks xs i) 0 _ hmem
    have hr := (rank_bounds (Hash64 x)).1
    omega
  · intro hno
    rcases foldl_max_eq_or_mem (routedRanks xs i) 0 with h | h
    · exact h
    · obtain ⟨x, hx, hi, _⟩ := (mem_routedRanks xs i _).1 h
      exact absurd hi (hno x hx)

theorem list_eq_map_range_getD (l : List Nat) :
    l = (List.range l.length).map (fun i => l.getD i 0) := by
  apply List.ext_getElem
  · simp
  · intro i h1 h2
    rw [List.getElem_map, List.getElem_range, List.getD_eq_getElem _ _ h1]

theorem length_filter_range_not_mem (n : Nat) (S : Finset Nat) (hS : ∀ i, i ∈ S → i < n) :
    ((List.range n).filter (fun i => decide (i ∉ S))).length = n - S.card := by
  have hnd : ((List.range n).filter (fun i => decide (i ∉ S))).Nodup :=
    (List.nodup_range n).filter _
  have hrange : (List.range n).toFinset = Finset.range n := by
    ext i
    rw [List.mem_toFinset, List.mem_range, Finset.mem_range]
  rw [← List.toFinset_card_of_nodup hnd, List.toFinset_filter, hrange]
  have hsub : S ⊆ Finset.range n := fun i hi => Finset.mem_range.2 (hS i hi)
  have heq : Finset.filter (fun i => decide (i ∉ S) = true) (Finset.range n) =
      Finset.range n \ S := by
    ext i
    simp
  rw [heq, Finset.card_sdiff hsub, Finset.card_range]

theorem count_zero_of_getD (bs : List Nat) (xs : List (List Byte))
    (hval : ∀ i, i < bs.length → bs.getD i 0 = maxRankAt xs i) :
    bs.count 0 =
      ((List.range bs.length).filter
        (fun i => decide (i ∉ (xs.map (fun x => bucketIndex (Hash64 x))).toFinset))).length := by
  have h1 : bs.count 0 = ((List.range bs.length).map (fun i => bs.getD i 0)).count 0 := by
    rw [← list_eq_map_range_getD]
  rw [h1, List.count, List.countP_map, List.countP_eq_length_filter]
  congr 1
  apply List.filter_congr
  intro i hi
  have hi2 : i < bs.length := List.mem_range.1 hi
  simp only [Function.comp, hval i hi2]
  have hz := maxRankAt_eq_zero_iff xs i
  by_cases h0 : maxRankAt xs i = 0
  · have hno := hz.1 h0
    have : i ∉ (xs.map (fun x => bucketIndex (Hash64 x))).toFinset := by
      rw [List.mem_toFinset, List.mem_map]
      rintro ⟨x, hx, hxi⟩
      exact hno x hx hxi
    simp [h0, this]
  · have : i ∈ (xs.map (fun x => bucketIndex (Hash64 x))).toFinset := by
      rw [List.mem_toFinset, List.mem_map]
      by_contra hcon
      apply h0
      apply hz.2
      intro x hx hxi
      exact hcon ⟨x, hx, hxi⟩
    simp [h0, this]

/-! ## The content of the buckets -/

/-- C17. For every finite list `xs` of byte sequences, adding all of `xs` to a fresh
estimator returns, and afterwards each bucket `i < m` holds exactly the maximum of the
ranks of the elements of `xs` whose index is `i`: it bounds all of them and is the rank of
one of them, or it is `0` and no element of `xs` is routed to `i`; and the number of zero
buckets is `m` minus the number of distinct indices hit. -/
theorem AddAll_buckets_are_max_ranks (xs : List (List Byte)) :
    ∃ hll, AddAll NewHyperLogLog xs = some hll ∧ hll.buckets.length = m ∧
      (∀ i, i < m →
        hll.buckets.getD i 0 = maxRankAt xs i ∧
        (∀ x, x ∈ xs → bucketIndex (Hash64 x) = i → rank (Hash64 x) ≤ hll.buckets.getD i 0) ∧
        ((∃ x, x ∈ xs ∧ bucketIndex (Hash64 x) = i ∧ rank (Hash64 x) = hll.buckets.getD i 0) ∨
          (hll.buckets.getD i 0 = 0 ∧ ∀ x, x ∈ xs → bucketIndex (Hash64 x) ≠ i))) ∧
      countZeros hll.buckets =
        m - (xs.map (fun x => bucketIndex (Hash64 x))).toFinset.card := by
  obtain ⟨hll, hadd, hlen, hval⟩ := AddAll_getD_foldl_max xs NewHyperLogLog NewHyperLogLog_length
  have hmax : ∀ i, hll.buckets.getD i 0 = maxRankAt xs i := by
    intro i
    rw [hval i, NewHyperLogLog_getD]
    rfl
  refine ⟨hll, hadd, hlen, ?_, ?_⟩
  · intro i _
    refine ⟨hmax i, ?_, ?_⟩
    · intro x hx hi
      rw [hmax i]
      exact foldl_max_mem_le _ 0 _ ((mem_routedRanks xs i _).2 ⟨x, hx, hi, rfl⟩)
    · rw [hmax i]
      rcases foldl_max_eq_or_mem (routedRanks xs i) 0 with h | h
      · right
        exact ⟨h, (maxRankAt_eq_zero_iff xs i).1 h⟩
      · left
        obtain ⟨x, hx, hi, hr⟩ := (mem_routedRanks xs i _).1 h
        exact ⟨x, hx, hi, hr⟩
  · rw [countZeros_eq_count, count_zero_of_getD hll.buckets xs (fun i _ => hmax i), hlen]
    apply length_filter_range_not_mem
    intro i hi
    rw [List.mem_toFinset, List.mem_map] at hi
    obtain ⟨x, _, hxi⟩ := hi
    rw [← hxi]
    exact bucketIndex_Hash64_lt x

/-! ## Lemmas: one bucket raised above zero -/

theorem replicate_set_eq (n i r : Nat) (hi : i < n) :
    (List.replicate n 0).set i r =
      List.replicate i 0 ++ r :: List.replicate (n - (i + 1)) 0 := by
  rw [List.set_eq_take_append_cons_drop, if_pos (by rw [List.length_replicate]; exact hi),
    List.take_replicate, List.drop_replicate, Nat.min_eq_left (Nat.le_of_lt hi)]

theorem count_zero_replicate_set (n i r : Nat) (hi : i < n) (hr : r ≠ 0) :
    ((List.replicate n 0).set i r).count 0 = n - 1 := by
  rw [replicate_set_eq n i r hi, List.count_append, List.count_cons_of_ne (Ne.symm hr),
    List.count_replicate_self, List.count_replicate_self]
  omega

theorem sum_replicate_set (n i r : Nat) (hi : i < n) :
    (((List.replicate n 0).set i r).map (fun v : Nat => (2 : ℚ) ^ (-(v : ℤ)))).sum =
      ((n - 1 : Nat) : ℚ) + (2 : ℚ) ^ (-(r : ℤ)) := by
  rw [replicate_set_eq n i r hi, List.map_append, List.map_cons, List.sum_append, List.sum_cons,
    sum_replicate_exact, sum_replicate_exact]
  have hn : n - 1 = i + (n - (i + 1)) := by omega
  rw [hn]
  push_cast
  simp only [Nat.cast_zero, neg_zero, zpow_zero, mul_one]
  ring

theorem AddAll_replicate_succ (e : List Byte) (k : Nat) :
    AddAll NewHyperLogLog (List.replicate (k + 1) e) =
      some { buckets := (List.replicate m 0).set (bucketIndex (Hash64 e)) (rank (Hash64 e)) } := by
  have hadd : Add NewHyperLogLog e =
      some { buckets := (List.replicate m 0).set (bucketIndex (Hash64 e)) (rank (Hash64 e)) } := by
    rw [Add_isSome NewHyperLogLog e NewHyperLogLog_length, NewHyperLogLog_getD, Nat.zero_max]
    rfl
  obtain ⟨hll, h1, _, h2⟩ :=
    AddAll_contains_noop NewHyperLogLog NewHyperLogLog_length [] [] e
  have h1b : AddAll NewHyperLogLog [e] = some hll := h1
  simp only [AddAll, hadd, Option.some_bind, Option.some.injEq] at h1b
  rw [← h1b] at h2
  rw [List.replicate_succ]
  simp only [AddAll, hadd, Option.some_bind]
  exact AddAll_replicate_noop _ e h2 k

/-! ## The estimate of one element -/

/-- C18. For every byte sequence `e`, adding `e` once or repeatedly to a fresh estimator
returns a state with exactly one non-zero bucket; its raw estimate is `<= 2.5 * m`, its
number of zero buckets is `m - 1 = 4095`, and `Estimate()` returns the truncation of
`4096 * ln(4096/4095)`, which is `1`; in exact arithmetic, for every logarithm between
`1 - 1/x` and `x - 1`. -/
theorem Estimate_one_element (Log : ℚ → ℚ)
    (hUpper : ∀ x : ℚ, 0 < x → Log x ≤ x - 1)
    (hLower : ∀ x : ℚ, 0 < x → 1 - 1 / x ≤ Log x)
    (e : List Byte) (k : Nat) :
    ∃ hll, AddAll NewHyperLogLog (List.replicate (k + 1) e) = some hll ∧
      hll.buckets.countP (fun v => decide (v ≠ 0)) = 1 ∧
      specRawEstimate hll.buckets ≤ 2.5 * (m : ℚ) ∧
      smallRange (exactOps Log) hll.buckets = true ∧
      countZeros hll.buckets = m - 1 ∧ m - 1 = 4095 ∧
      Estimate (exactOps Log) hll = ⌊(4096 : ℚ) * Log (4096 / 4095)⌋₊ ∧
      Estimate (exactOps Log) hll = 1 := by
  have hi : bucketIndex (Hash64 e) < m := bucketIndex_Hash64_lt e
  have hr : rank (Hash64 e) ≠ 0 := by
    have := (rank_bounds (Hash64 e)).1
    omega
  have hcount : ((List.replicate m 0).set (bucketIndex (Hash64 e)) (rank (Hash64 e))).count 0 =
      m - 1 := count_zero_replicate_set m _ _ hi hr
  have hsum := sum_replicate_set m (bucketIndex (Hash64 e)) (rank (Hash64 e)) hi
  have hm1 : m - 1 = 4095 := by rw [m_eq]
  have hE : specRawEstimate ((List.replicate m 0).set (bucketIndex (Hash64 e))
      (rank (Hash64 e))) ≤ 2.5 * (m : ℚ) := by
    unfold specRawEstimate specAlpha
    rw [hsum, hm1, m_eq]
    have hpow : (0 : ℚ) < (2 : ℚ) ^ (-(rank (Hash64 e) : ℤ)) := zpow_pos (by norm_num) _
    generalize (2 : ℚ) ^ (-(rank (Hash64 e) : ℤ)) = t at hpow
    have hden : (0 : ℚ) < ((4095 : Nat) : ℚ) + t := by
      have : (0 : ℚ) < ((4095 : Nat) : ℚ) := by norm_num
      linarith
    rw [div_le_iff₀ hden]
    norm_num
    linarith
  have hsmall := (smallRange_iff Log _).2 hE
  have hzeros : countZeros ((List.replicate m 0).set (bucketIndex (Hash64 e))
      (rank (Hash64 e))) = m - 1 := by
    rw [countZeros_eq_count]
    exact hcount
  have hval : Estimate (exactOps Log)
      { buckets := (List.replicate m 0).set (bucketIndex (Hash64 e)) (rank (Hash64 e)) } =
      ⌊(4096 : ℚ) * Log (4096 / 4095)⌋₊ := by
    unfold Estimate
    rw [estimateValue_small_zeros _ _ hsmall (by rw [hzeros, hm1]; decide), toUint64_exact,
      smallLogArg_exact]
    show ⌊(exactOps Log).mul ((exactOps Log).lit (m : ℚ))
      (Log ((m : ℚ) / ((((List.replicate m 0).set (bucketIndex (Hash64 e))
        (rank (Hash64 e))).count 0 : Nat) : ℚ)))⌋₊ = _
    rw [hcount, hm1, m_eq]
    norm_num [exactOps]
  refine ⟨_, AddAll_replicate_succ e k, ?_, hE, hsmall, hzeros, hm1, hval, ?_⟩
  · have hlen : ((List.replicate m 0).set (bucketIndex (Hash64 e)) (rank (Hash64 e))).length = m := by
      simp
    have hsplit := List.length_eq_countP_add_countP (fun v : Nat => decide (v = 0))
      ((List.replicate m 0).set (bucketIndex (Hash64 e)) (rank (Hash64 e)))
    have hc0 : List.countP (fun v : Nat => decide (v = 0))
        ((List.replicate m 0).set (bucketIndex (Hash64 e)) (rank (Hash64 e))) = m - 1 := by
      rw [← hcount, List.count]
      apply List.countP_congr
      intro v _
      simp
    have hcn : List.countP (fun v : Nat => decide (v ≠ 0))
        ((List.replicate m 0).set (bucketIndex (Hash64 e)) (rank (Hash64 e))) =
        List.countP (fun a => decide ¬(decide (a = 0)) = true)
        ((List.replicate m 0).set (bucketIndex (Hash64 e)) (rank (Hash64 e))) := by
      apply List.countP_congr
      intro v _
      simp
    show List.countP (fun v : Nat => decide (v ≠ 0))
        ((List.replicate m 0).set (bucketIndex (Hash64 e)) (rank (Hash64 e))) = 1
    rw [hcn]
    rw [hlen, hc0] at hsplit
    have hm := m_eq
    omega
  · rw [hval]
    have hpos : (0 : ℚ) < 4096 / 4095 := by norm_num
    have hu := hUpper (4096 / 4095) hpos
    have hl := hLower (4096 / 4095) hpos
    rw [Nat.floor_eq_iff (by
      have : (0 : ℚ) ≤ Log (4096 / 4095) := by
        have : (0 : ℚ) ≤ 1 - 1 / (4096 / 4095) := by norm_num
        linarith
      positivity)]
    constructor
    · have : (1 : ℚ) - 1 / (4096 / 4095) = 1 / 4096 := by norm_num
      rw [this] at hl
      push_cast
      linarith
    · have : (4096 : ℚ) / 4095 - 1 = 1 / 4095 := by norm_num
      rw [this] at hu
      push_cast
      linarith

theorem Estimate_one_element_witness :
    (∀ x : ℚ, 0 < x → tangentLog x ≤ x - 1) ∧
    (∀ x : ℚ, 0 < x → 1 - 1 / x ≤ tangentLog x) ∧
    ∃ hll, AddAll NewHyperLogLog (List.replicate (2 + 1) [97]) = some hll ∧
      hll.buckets.countP (fun v => decide (v ≠ 0)) = 1 ∧
      specRawEstimate hll.buckets ≤ 2.5 * (m : ℚ) ∧
      smallRange (exactOps tangentLog) hll.buckets = true ∧
      countZeros hll.buckets = m - 1 ∧ m - 1 = 4095 ∧
      Estimate (exactOps tangentLog) hll = ⌊(4096 : ℚ) * tangentLog (4096 / 4095)⌋₊ ∧
      Estimate (exactOps tangentLog) hll = 1 :=
  ⟨fun x _ => le_of_eq rfl,
   fun x hx => by
     unfold tangentLog
     have h : 0 ≤ (x - 1) ^ 2 / x := div_nonneg (sq_nonneg _) (le_of_lt hx)
     have e : (x - 1) ^ 2 / x = (x - 1) - (1 - 1 / x) := by
       field_simp
       ring
     rw [e] at h
     linarith,
   Estimate_one_element tangentLog (fun x _ => le_of_eq rfl)
     (fun x hx => by
       unfold tangentLog
       have h : 0 ≤ (x - 1) ^ 2 / x := div_nonneg (sq_nonneg _) (le_of_lt hx)
       have e : (x - 1) ^ 2 / x = (x - 1) - (1 - 1 / x) := by
         field_simp
         ring
       rw [e] at h
       linarith)
     [97] 2⟩

/-! ## Lemmas: the body of `Estimate` on its variables -/

theorem foldl_sumStep {F : Type} (ops : Float64Ops F) :
    ∀ (idxs : List Nat) (vars : EstimateVars F),
      idxs.foldl (sumStep ops) vars =
        { vars with
          sum := idxs.foldl
            (fun (s : F) (i : Nat) =>
              ops.add s (ops.div (ops.lit 1)
                (ops.Pow (ops.lit 2) (ops.lit ((vars.buckets.getD i 0 : Nat) : ℚ)))))
            vars.sum } := by
  intro idxs
  induction idxs with
  | nil => intro vars; rfl
  | cons i idxs ih =>
    intro vars
    rw [List.foldl_cons, ih]
    rfl

theorem foldl_zerosStep {F : Type} :
    ∀ (idxs : List Nat) (vars : EstimateVars F),
      idxs.foldl zerosStep vars =
        { vars with
          zeros := idxs.foldl
            (fun (z : Nat) (i : Nat) => if vars.buckets.getD i 0 = 0 then z + 1 else z)
            vars.zeros } := by
  intro idxs
  induction idxs with
  | nil => intro vars; rfl
  | cons i idxs ih =>
    intro vars
    rw [List.foldl_cons, ih]
    unfold zerosStep
    by_cases h : vars.buckets.getD i 0 = 0
    · simp only [h, if_true, List.foldl_cons]
    · simp only [h, if_false, List.foldl_cons]

theorem foldl_range_getD {β : Type} (g : β → Nat → β) (l : List Nat) (init : β) :
    (List.range l.length).foldl (fun acc i => g acc (l.getD i 0)) init = l.foldl g init := by
  have h : l.foldl g init =
      ((List.range l.length).map (fun i => l.getD i 0)).foldl g init := by
    rw [← list_eq_map_range_getD]
  rw [h, List.foldl_map]

theorem EstimateBody_spec {F : Type} (ops : Float64Ops F) (vars : EstimateVars F) :
    (EstimateBody ops vars).buckets = vars.buckets ∧
    (EstimateBody ops vars).estimate = estimateValue ops { buckets := vars.buckets } := by
  have hsum : (List.range vars.buckets.length).foldl
      (fun (s : F) (i : Nat) =>
        ops.add s (ops.div (ops.lit 1)
          (ops.Pow (ops.lit 2) (ops.lit ((vars.buckets.getD i 0 : Nat) : ℚ)))))
      (ops.lit 0) = bucketSum ops vars.buckets :=
    foldl_range_getD
      (fun (s : F) (v : Nat) =>
        ops.add s (ops.div (ops.lit 1) (ops.Pow (ops.lit 2) (ops.lit (v : ℚ)))))
      vars.buckets (ops.lit 0)
  have hzeros : (List.range vars.buckets.length).foldl
      (fun (z : Nat) (i : Nat) => if vars.buckets.getD i 0 = 0 then z + 1 else z) 0 =
      countZeros vars.buckets :=
    foldl_range_getD (fun (z : Nat) (v : Nat) => if v = 0 then z + 1 else z) vars.buckets 0
  unfold EstimateBody estimateValue smallRange largeRange smallLogArg largeLogArg rawEstimate
  simp only [foldl_sumStep, foldl_zerosStep, hsum, hzeros]
  by_cases hs : ops.le (ops.div (alphaMM ops) (bucketSum ops vars.buckets))
      (ops.mul (ops.lit (5 / 2)) (ops.lit (m : ℚ))) = true
  · simp only [hs, if_true]
    by_cases hz : countZeros vars.buckets > 0
    · simp only [hz, if_true, and_self]
    · simp only [hz, if_false, and_self]
  · by_cases hl : ops.lt (ops.lit (2 ^ 32 / 30))
        (ops.div (alphaMM ops) (bucketSum ops vars.buckets)) = true
    · simp only [hs, hl, if_true, if_false, Bool.false_eq_true, and_self]
    · simp only [hs, hl, if_false, Bool.false_eq_true, and_self]

theorem EstimateExec_eq {F : Type} (ops : Float64Ops F) (hll : HyperLogLog) :
    EstimateExec ops hll = (hll, Estimate ops hll) := by
  have h := EstimateBody_spec ops
    { buckets := hll.buckets, sum := ops.lit 0, estimate := ops.lit 0, zeros := 0 }
  unfold EstimateExec Estimate
  simp only [h.1, h.2]

/-! ## Lemmas: `Estimate` evaluated with the rational logarithm -/

theorem Estimate_padeLog_all_17 : Estimate (exactOps padeLog) { buckets := List.replicate m 17 } = 405414797 := by
  have hsa : smallRange (exactOps padeLog) (List.replicate m 17) = false := by
    rw [← Bool.not_eq_true, smallRange_iff, specRawEstimate_replicate, m_eq]
    norm_num
  have hla : largeRange (exactOps padeLog) (List.replicate m 17) = true := by
    apply (largeRange_iff padeLog _).2
    rw [specRawEstimate_replicate]
    norm_num
  unfold Estimate
  rw [estimateValue_large (exactOps padeLog) { buckets := List.replicate m 17 } hsa hla, toUint64_exact, largeLogArg_exact,
    specRawEstimate_replicate]
  show ⌊(-(2 ^ 32) : ℚ) * padeLog (1 - 0.7213 / (1 + 1.079 / 4096) * 4096 * 2 ^ 17 / 2 ^ 32)⌋₊ = _
  rw [Nat.floor_eq_iff (by norm_num [padeLog])]
  norm_num [padeLog]

theorem Estimate_padeLog_all_3 : Estimate (exactOps padeLog) { buckets := List.replicate m 3 } = 23629 := by
  have hsb : smallRange (exactOps padeLog) (List.replicate m 3) = false := by
    rw [← Bool.not_eq_true, smallRange_iff, specRawEstimate_replicate, m_eq]
    norm_num
  have hlb : largeRange (exactOps padeLog) (List.replicate m 3) = false := by
    rw [← Bool.not_eq_true, largeRange_iff, specRawEstimate_replicate]
    norm_num
  unfold Estimate
  rw [estimateValue_mid (exactOps padeLog) { buckets := List.replicate m 3 } hsb hlb, toUint64_exact, rawEstimate_replicate,
    Nat.floor_eq_iff (by norm_num)]
  norm_num

theorem Estimate_padeLog_all_1 : Estimate (exactOps padeLog) { buckets := List.replicate m 1 } = 5907 := by
  have hs : smallRange (exactOps padeLog) (List.replicate m 1) = true := by
    rw [smallRange_iff, specRawEstimate_replicate, m_eq]
    norm_num
  have hcb : countZeros (List.replicate m 1) = 0 := by
    rw [countZeros_eq_count, List.count_replicate]
    rfl
  unfold Estimate
  rw [estimateValue_small_nozeros (exactOps padeLog) { buckets := List.replicate m 1 } hs hcb, toUint64_exact, rawEstimate_replicate,
    Nat.floor_eq_iff (by norm_num)]
  norm_num

theorem Estimate_padeLog_one_bucket : Estimate (exactOps padeLog) { buckets := (List.replicate m 0).set 2806 3 } = 1 := by
  have hidx : 2806 < m := by rw [m_eq]; decide
  have hs : smallRange (exactOps padeLog) ((List.replicate m 0).set 2806 3) = true := by
    apply (smallRange_iff padeLog _).2
    unfold specRawEstimate specAlpha
    rw [sum_replicate_set m 2806 3 hidx, m_eq]
    norm_num
  have hc : ((List.replicate m 0).set 2806 3).count 0 = m - 1 :=
    count_zero_replicate_set m 2806 3 hidx (by decide)
  unfold Estimate
  rw [estimateValue_small_zeros (exactOps padeLog)
      { buckets := (List.replicate m 0).set 2806 3 } hs (by rw [countZeros_eq_count, hc, m_eq]; decide),
    toUint64_exact, smallLogArg_exact]
  show ⌊((m : ℚ)) * padeLog ((m : ℚ) / ((((List.replicate m 0).set 2806 3).count 0 : Nat) : ℚ))⌋₊ = 1
  rw [hc, m_eq, Nat.floor_eq_iff (by norm_num [padeLog])]
  norm_num [padeLog]

theorem floor_rawEstimate_all_17 :
    ⌊rawEstimate (exactOps padeLog) (List.replicate m 17)⌋₊ = 387143004 := by
  rw [rawEstimate_replicate, Nat.floor_eq_iff (by norm_num)]
  norm_num

/-! ## The branches of `Estimate` on the computed raw estimate -/

/-- C8. For every bucket array whose raw estimate `E`, as `Estimate()` computes it
(`alphaMM / sum`), passes the test `E <= 2.5 * m`: if the number of zero-valued buckets is
positive, `Estimate()` returns `uint64` of `m * Log(m / zeros)`, and if it is zero,
`Estimate()` returns `uint64` of the raw `E`; under every interpretation of the
floating-point operations, the test being its comparison `<=` and not its `<`. Read in
exact arithmetic, the expression computed for `E` is `alpha_m * m^2 / (sum of 2^(-value))`
with `alpha_m = 0.7213 / (1 + 1.079/m)`. -/
theorem Estimate_small_branch {F : Type} (ops : Float64Ops F) (hll : HyperLogLog)
    (hE : ops.le (rawEstimate ops hll.buckets) (ops.mul (ops.lit (5 / 2)) (ops.lit m)) = true) :
    (0 < hll.buckets.count 0 →
      Estimate ops hll =
        ops.toUint64 (ops.mul (ops.lit m)
          (ops.Log (ops.div (ops.lit m) (ops.lit ((hll.buckets.count 0 : Nat) : ℚ)))))) ∧
    (hll.buckets.count 0 = 0 →
      Estimate ops hll = ops.toUint64 (rawEstimate ops hll.buckets)) ∧
    (∀ Log : ℚ → ℚ, rawEstimate (exactOps Log) hll.buckets =
      0.7213 / (1 + 1.079 / (m : ℚ)) * (m : ℚ) ^ 2 /
        (hll.buckets.map (fun v : Nat => (2 : ℚ) ^ (-(v : ℤ)))).sum) := by
  have hs : smallRange ops hll.buckets = true := hE
  refine ⟨?_, ?_, ?_⟩
  · intro hz
    unfold Estimate
    rw [estimateValue_small_zeros _ _ hs (by rw [countZeros_eq_count]; exact hz)]
    unfold smallLogArg
    rw [countZeros_eq_count]
  · intro hz
    unfold Estimate
    rw [estimateValue_small_nozeros _ _ hs (by rw [countZeros_eq_count]; exact hz)]
  · intro Log
    rw [rawEstimate_eq_spec]
    rfl

theorem Estimate_small_branch_witness :
    ((exactOps padeLog).le (rawEstimate (exactOps padeLog) ((List.replicate m 0).set 2806 3))
        ((exactOps padeLog).mul ((exactOps padeLog).lit (5 / 2)) ((exactOps padeLog).lit m)) = true ∧
      0 < ((List.replicate m 0).set 2806 3).count 0 ∧
      Estimate (exactOps padeLog) { buckets := (List.replicate m 0).set 2806 3 } =
        (exactOps padeLog).toUint64 ((exactOps padeLog).mul ((exactOps padeLog).lit m)
          (padeLog ((exactOps padeLog).div ((exactOps padeLog).lit m)
            ((exactOps padeLog).lit ((((List.replicate m 0).set 2806 3).count 0 : Nat) : ℚ))))) ∧
      Estimate (exactOps padeLog) { buckets := (List.replicate m 0).set 2806 3 } = 1) ∧
    ((exactOps padeLog).le (rawEstimate (exactOps padeLog) (List.replicate m 1))
        ((exactOps padeLog).mul ((exactOps padeLog).lit (5 / 2)) ((exactOps padeLog).lit m)) = true ∧
      (List.replicate m 1).count 0 = 0 ∧
      Estimate (exactOps padeLog) { buckets := List.replicate m 1 } =
        (exactOps padeLog).toUint64 (rawEstimate (exactOps padeLog) (List.replicate m 1)) ∧
      Estimate (exactOps padeLog) { buckets := List.replicate m 1 } = 5907) := by
  have hidx : 2806 < m := by rw [m_eq]; decide
  have hEa : (exactOps padeLog).le
      (rawEstimate (exactOps padeLog) ((List.replicate m 0).set 2806 3))
      ((exactOps padeLog).mul ((exactOps padeLog).lit (5 / 2)) ((exactOps padeLog).lit m)) =
      true := by
    apply (smallRange_iff padeLog _).2
    unfold specRawEstimate specAlpha
    rw [sum_replicate_set m 2806 3 hidx, m_eq]
    norm_num
  have hEb : (exactOps padeLog).le (rawEstimate (exactOps padeLog) (List.replicate m 1))
      ((exactOps padeLog).mul ((exactOps padeLog).lit (5 / 2)) ((exactOps padeLog).lit m)) =
      true := by
    apply (smallRange_iff padeLog _).2
    rw [specRawEstimate_replicate, m_eq]
    norm_num
  have hca : 0 < ((List.replicate m 0).set 2806 3).count 0 := by
    rw [count_zero_replicate_set m 2806 3 hidx (by decide), m_eq]
    decide
  have hcb : (List.replicate m 1).count 0 = 0 := by
    rw [List.count_replicate]
    rfl
  exact ⟨⟨hEa, hca,
      (Estimate_small_branch (exactOps padeLog) { buckets := (List.replicate m 0).set 2806 3 }
        hEa).1 hca,
      Estimate_padeLog_one_bucket⟩,
    ⟨hEb, hcb,
      (Estimate_small_branch (exactOps padeLog) { buckets := List.replicate m 1 } hEb).2.1 hcb,
      Estimate_padeLog_all_1⟩⟩

/-- C9, the claim as stated fails: the bucket array of length `m` with every value `22`
has a raw estimate `E > 2.5 * m` and `E > 2^32 / 30`, `Estimate()` takes the large-range
branch on it, and the argument `1 - E/2^32` of the logarithm is negative, so there is no
number `-2^32 * ln(1 - E/2^32)` whose truncation could be returned. -/
theorem large_branch_argument_negative_example :
    (List.replicate m 22).length = m ∧
    (∀ v, v ∈ List.replicate m 22 → v ≤ 64 - p + 1) ∧
    2.5 * (m : ℚ) < specRawEstimate (List.replicate m 22) ∧
    2 ^ 32 / 30 < specRawEstimate (List.replicate m 22) ∧
    smallRange (exactOps padeLog) (List.replicate m 22) = false ∧
    largeRange (exactOps padeLog) (List.replicate m 22) = true ∧
    1 - specRawEstimate (List.replicate m 22) / 2 ^ 32 < 0 := by
  have h1 : 2.5 * (m : ℚ) < specRawEstimate (List.replicate m 22) := by
    rw [specRawEstimate_replicate, m_eq]
    norm_num
  have h2 : (2 : ℚ) ^ 32 / 30 < specRawEstimate (List.replicate m 22) := by
    rw [specRawEstimate_replicate]
    norm_num
  refine ⟨List.length_replicate _ _, ?_, h1, h2, ?_, (largeRange_iff padeLog _).2 h2, ?_⟩
  · intro v hv
    rw [List.eq_of_mem_replicate hv]
    decide
  · rw [← Bool.not_eq_true, smallRange_iff]
    exact not_le.2 h1
  · rw [specRawEstimate_replicate]
    norm_num

/-- C9, amended. For every bucket array whose raw estimate `E`, as `Estimate()` computes
it, fails the test `E <= 2.5 * m`: if `E > 2^32 / 30` then `Estimate()` returns `uint64` of
the computed `-2^32 * Log(1 - E/2^32)`, otherwise it returns `uint64` of the raw `E`
unmodified; under every interpretation of the floating-point operations. The argument
`1 - E/2^32` of the logarithm is positive, so that the large-range result is the
truncation of a number, exactly when `E < 2^32`. -/
theorem Estimate_upper_branches {F : Type} (ops : Float64Ops F) (hll : HyperLogLog)
    (hE : ops.le (rawEstimate ops hll.buckets) (ops.mul (ops.lit (5 / 2)) (ops.lit m)) = false) :
    (ops.lt (ops.lit (2 ^ 32 / 30)) (rawEstimate ops hll.buckets) = true →
      Estimate ops hll =
        ops.toUint64 (ops.mul (ops.lit (-(2 ^ 32)))
          (ops.Log (ops.sub (ops.lit 1)
            (ops.div (rawEstimate ops hll.buckets) (ops.lit (2 ^ 32))))))) ∧
    (ops.lt (ops.lit (2 ^ 32 / 30)) (rawEstimate ops hll.buckets) = false →
      Estimate ops hll = ops.toUint64 (rawEstimate ops hll.buckets)) ∧
    (∀ Log : ℚ → ℚ,
      largeLogArg (exactOps Log) hll.buckets =
        1 - rawEstimate (exactOps Log) hll.buckets / 2 ^ 32 ∧
      (0 < largeLogArg (exactOps Log) hll.buckets ↔
        rawEstimate (exactOps Log) hll.buckets < 2 ^ 32)) := by
  have hs : smallRange ops hll.buckets = false := hE
  refine ⟨?_, ?_, ?_⟩
  · intro hl
    have hl2 : largeRange ops hll.buckets = true := hl
    unfold Estimate
    rw [estimateValue_large _ _ hs hl2]
    rfl
  · intro hl
    have hl2 : largeRange ops hll.buckets = false := hl
    unfold Estimate
    rw [estimateValue_mid _ _ hs hl2]
  · intro Log
    refine ⟨rfl, ?_⟩
    rw [largeLogArg_exact, rawEstimate_eq_spec, sub_pos, div_lt_one (by norm_num)]

theorem Estimate_upper_branches_witness :
    ((exactOps padeLog).le (rawEstimate (exactOps padeLog) (List.replicate m 17))
        ((exactOps padeLog).mul ((exactOps padeLog).lit (5 / 2)) ((exactOps padeLog).lit m)) = false ∧
      (exactOps padeLog).lt ((exactOps padeLog).lit (2 ^ 32 / 30))
        (rawEstimate (exactOps padeLog) (List.replicate m 17)) = true ∧
      rawEstimate (exactOps padeLog) (List.replicate m 17) < 2 ^ 32 ∧
      Estimate (exactOps padeLog) { buckets := List.replicate m 17 } =
        (exactOps padeLog).toUint64 ((exactOps padeLog).mul ((exactOps padeLog).lit (-(2 ^ 32)))
          (padeLog ((exactOps padeLog).sub ((exactOps padeLog).lit 1)
            ((exactOps padeLog).div (rawEstimate (exactOps padeLog) (List.replicate m 17))
              ((exactOps padeLog).lit (2 ^ 32)))))) ∧
      Estimate (exactOps padeLog) { buckets := List.replicate m 17 } = 405414797 ∧
      ⌊rawEstimate (exactOps padeLog) (List.replicate m 17)⌋₊ = 387143004) ∧
    ((exactOps padeLog).le (rawEstimate (exactOps padeLog) (List.replicate m 3))
        ((exactOps padeLog).mul ((exactOps padeLog).lit (5 / 2)) ((exactOps padeLog).lit m)) = false ∧
      (exactOps padeLog).lt ((exactOps padeLog).lit (2 ^ 32 / 30))
        (rawEstimate (exactOps padeLog) (List.replicate m 3)) = false ∧
      Estimate (exactOps padeLog) { buckets := List.replicate m 3 } =
        (exactOps padeLog).toUint64 (rawEstimate (exactOps padeLog) (List.replicate m 3)) ∧
      Estimate (exactOps padeLog) { buckets := List.replicate m 3 } = 23629) := by
  have hsa : (exactOps padeLog).le (rawEstimate (exactOps padeLog) (List.replicate m 17))
      ((exactOps padeLog).mul ((exactOps padeLog).lit (5 / 2)) ((exactOps padeLog).lit m)) =
      false := by
    show smallRange (exactOps padeLog) (List.replicate m 17) = false
    rw [← Bool.not_eq_true, smallRange_iff, specRawEstimate_replicate, m_eq]
    norm_num
  have hla : (exactOps padeLog).lt ((exactOps padeLog).lit (2 ^ 32 / 30))
      (rawEstimate (exactOps padeLog) (List.replicate m 17)) = true := by
    apply (largeRange_iff padeLog _).2
    rw [specRawEstimate_replicate]
    norm_num
  have hra : rawEstimate (exactOps padeLog) (List.replicate m 17) < 2 ^ 32 := by
    rw [rawEstimate_replicate]
    norm_num
  have hsb : (exactOps padeLog).le (rawEstimate (exactOps padeLog) (List.replicate m 3))
      ((exactOps padeLog).mul ((exactOps padeLog).lit (5 / 2)) ((exactOps padeLog).lit m)) =
      false := by
    show smallRange (exactOps padeLog) (List.replicate m 3) = false
    rw [← Bool.not_eq_true, smallRange_iff, specRawEstimate_replicate, m_eq]
    norm_num
  have hlb : (exactOps padeLog).lt ((exactOps padeLog).lit (2 ^ 32 / 30))
      (rawEstimate (exactOps padeLog) (List.replicate m 3)) = false := by
    show largeRange (exactOps padeLog) (List.replicate m 3) = false
    rw [← Bool.not_eq_true, largeRange_iff, specRawEstimate_replicate]
    norm_num
  exact ⟨⟨hsa, hla, hra,
      (Estimate_upper_branches (exactOps padeLog) { buckets := List.replicate m 17 } hsa).1 hla,
      Estimate_padeLog_all_17, floor_rawEstimate_all_17⟩,
    ⟨hsb, hlb,
      (Estimate_upper_branches (exactOps padeLog) { buckets := List.replicate m 3 } hsb).2.1 hlb,
      Estimate_padeLog_all_3⟩⟩

/-! ## `Estimate` and the bucket array -/

/-- C13. `Estimate()` never mutates the bucket array: the body of `Estimate`, run statement
by statement on the variables of the call, leaves the array as it found it; the value it
returns is a function of the array alone; and calling it any number of times on the same
state with no intervening `Add` returns the same value every time. Under every
interpretation of the floating-point operations. -/
theorem Estimate_leaves_buckets {F : Type} (ops : Float64Ops F) (hll : HyperLogLog)
    (n : Nat) :
    (∀ vars : EstimateVars F, (EstimateBody ops vars).buckets = vars.buckets) ∧
    (EstimateExec ops hll).1 = hll ∧
    (EstimateExec ops hll).2 = Estimate ops hll ∧
    (EstimateCalls ops n hll).1 = hll ∧
    (EstimateCalls ops n hll).2 = List.replicate n (EstimateExec ops hll).2 := by
  have hexec := EstimateExec_eq ops hll
  refine ⟨fun vars => (EstimateBody_spec ops vars).1, ?_, ?_, ?_⟩
  · rw [hexec]
  · rw [hexec]
  · induction n with
    | zero => exact ⟨rfl, rfl⟩
    | succ n ih =>
      have h1 : (EstimateCalls ops (n + 1) hll).1 =
          (EstimateCalls ops n (EstimateExec ops hll).1).1 := rfl
      have h2 : (EstimateCalls ops (n + 1) hll).2 =
          (EstimateExec ops hll).2 :: (EstimateCalls ops n (EstimateExec ops hll).1).2 := rfl
      have h3 : (EstimateExec ops hll).1 = hll := by rw [hexec]
      rw [h1, h2, h3, ih.1, ih.2, List.replicate_succ]
      exact ⟨rfl, rfl⟩

end HLL
